import Mathlib

/-!
Verification development for the MediServe order-fulfillment engine
(`apps/orders` and `apps/medicine` of the repository).

The Django models and views are shallowly embedded: a database table is a
`List` of records, a query is a `filter`/sort over that list, a `save()` is a
replace-by-primary-key, and each view action is a pure function from state to
state paired with an outcome message.  Machine integers do not overflow in the
relevant code paths, so quantities are `Int` (Django `IntegerField`) or `Nat`
(`PositiveIntegerField`); `DateField` values are totally ordered and embedded
as `Nat` day numbers; `FileField`/`CharField` values are `Option String`
(`none` is SQL NULL, `some ""` is an empty string, which is falsy in Python
but not NULL in SQL).  The project uses Django's default SQLite backend, where
`ORDER BY` puts NULLs first in ascending order.
-/

namespace MediServe

/-- Python truthiness of a Django `FieldFile` / nullable `CharField` value:
falsy exactly when the stored name is NULL or the empty string. -/
def fileTruthy : Option String → Bool
  | none => false
  | some s => s ≠ ""

/-- A user account (`apps/accounts/models.py`, class `Account`); only the
fields consumed by the order engine are kept.  `senior_citizen_id` and
`pwd_id` are `FileField(null=True, blank=True)` columns holding the uploaded
file name. -/
structure User where
  uid : Nat
  senior_citizen_id : Option String
  pwd_id : Option String
  deriving Repr, DecidableEq

/-- The filter `user__senior_citizen_id__isnull=False OR user__pwd_id__isnull=False`
used by `Order.assign_queue_number` to select the priority partition of the
queue. -/
def User.isNullPriority (u : User) : Bool :=
  u.senior_citizen_id.isSome || u.pwd_id.isSome

/-- The filter `user__senior_citizen_id__isnull=True AND user__pwd_id__isnull=True`
used by `Order.assign_queue_number` to select the regular partition of the
queue. -/
def User.isNullRegular (u : User) : Bool :=
  u.senior_citizen_id.isNone && u.pwd_id.isNone

/-- The truthiness test `self.user.senior_citizen_id or self.user.pwd_id`
with which `Order.assign_queue_number` classifies the order being inserted. -/
def User.selfPriority (u : User) : Bool :=
  fileTruthy u.senior_citizen_id || fileTruthy u.pwd_id

/-- Embeds `Order.is_priority_user` (`apps/orders/models.py`):
`bool(self.user.senior_citizen_id or self.user.pwd_id)`. -/
def User.is_priority_user (u : User) : Bool :=
  fileTruthy u.senior_citizen_id || fileTruthy u.pwd_id

/-- On a SQL text column the comparison `> ''` holds iff the value is a
non-empty string (every non-empty string sorts strictly after the empty
string in any SQL collation). -/
def sqlGtEmpty (s : String) : Bool := s ≠ ""

/-- The priority filter of the `fix_queue_numbers` management command:
`(senior_citizen_id non-NULL AND senior_citizen_id > '') OR
(pwd_id non-NULL AND pwd_id > '')`. -/
def User.fixCmdPriority (u : User) : Bool :=
  (u.senior_citizen_id.isSome && sqlGtEmpty (u.senior_citizen_id.getD "")) ||
  (u.pwd_id.isSome && sqlGtEmpty (u.pwd_id.getD ""))

/-- The regular filter of the `fix_queue_numbers` management command:
`(senior NULL OR senior = '') AND (pwd NULL OR pwd = '')`. -/
def User.fixCmdRegular (u : User) : Bool :=
  (u.senior_citizen_id.isNone || u.senior_citizen_id = some "") &&
  (u.pwd_id.isNone || u.pwd_id = some "")

/-- The specification's priority classifier: a user is priority iff they have
a non-empty senior-citizen document or a non-empty disability document, an
empty-string upload counting as no document. -/
def User.specPriority (u : User) : Bool :=
  (match u.senior_citizen_id with | some s => s ≠ "" | none => false) ||
  (match u.pwd_id with | some s => s ≠ "" | none => false)

/-! ## Claim C6: priority classification across queue operations -/

/-- Claim C6 as stated: every queue-operation classifier — the inserted
order's own classification, the partition filters on already-queued orders,
the priority-status helper and the queue-recalculation command — classifies a
user as priority iff the user has a non-empty senior-citizen or disability
document, an empty-string upload being treated identically to NULL. -/
def C6ClaimStatement : Prop := ∀ u : User,
  u.selfPriority = u.specPriority ∧
  u.isNullPriority = u.specPriority ∧
  u.isNullRegular = !u.specPriority ∧
  u.is_priority_user = u.specPriority ∧
  u.fixCmdPriority = u.specPriority ∧
  u.fixCmdRegular = !u.specPriority

/-- Claim C6 is false: a user whose senior-citizen document field holds the
empty string is selected by `assign_queue_number`'s priority partition filter
(`senior_citizen_id__isnull=False`), although the claim requires an
empty-string upload to be treated as non-priority. -/
theorem C6_counterexample : ¬ C6ClaimStatement := by
  intro h
  have h0 := (h ⟨0, some "", none⟩).2.1
  simp [User.isNullPriority, User.specPriority] at h0

/-- Claim C6 amended: the inserted order's own classification in
`assign_queue_number`, the helper `is_priority_user`, and the
`fix_queue_numbers` command all classify a user as priority iff the user has
a non-empty senior-citizen or disability document (empty string counting as
no document); but the partition filters inside `assign_queue_number` classify
by NULL-ness, so an empty-string document is partitioned as priority there. -/
theorem C6_classifiers_agree_except_partition (u : User) :
    u.selfPriority = u.specPriority ∧
    u.is_priority_user = u.specPriority ∧
    u.fixCmdPriority = u.specPriority ∧
    u.fixCmdRegular = !u.specPriority ∧
    ((u.senior_citizen_id ≠ some "" ∧ u.pwd_id ≠ some "") →
      u.isNullPriority = u.specPriority ∧ u.isNullRegular = !u.specPriority) := by
  have hspec : ∀ o : Option String,
      (match o with | some s => decide (s ≠ "") | none => false) = fileTruthy o := by
    intro o; cases o <;> rfl
  have hspec' : u.specPriority =
      (fileTruthy u.senior_citizen_id || fileTruthy u.pwd_id) := by
    simp only [User.specPriority, hspec]
  have hcmd : ∀ o : Option String,
      (o.isSome && sqlGtEmpty (o.getD "")) = fileTruthy o := by
    intro o; cases o <;> rfl
  have hreg : ∀ o : Option String,
      ((o.isNone || o = some "") : Bool) = !fileTruthy o := by
    intro o
    cases o with
    | none => rfl
    | some s => by_cases h : s = "" <;> simp [fileTruthy, h]
  refine ⟨?_, ?_, ?_, ?_, ?_⟩
  · rw [hspec']; rfl
  · rw [hspec']; rfl
  · rw [hspec']
    simp only [User.fixCmdPriority, hcmd]
  · rw [hspec']
    simp only [User.fixCmdRegular, hreg, Bool.not_or]
  · rintro ⟨h1, h2⟩
    have hnn : ∀ o : Option String, o ≠ some "" → o.isSome = fileTruthy o := by
      intro o ho
      cases o with
      | none => rfl
      | some s =>
        have : s ≠ "" := fun h => ho (by rw [h])
        simp [fileTruthy, this]
    constructor
    · rw [hspec']
      simp only [User.isNullPriority, hnn _ h1, hnn _ h2]
    · rw [hspec']
      simp only [User.isNullRegular, Bool.not_or]
      have : ∀ o : Option String, o ≠ some "" → o.isNone = !fileTruthy o := by
        intro o ho
        cases o with
        | none => rfl
        | some s =>
          have : s ≠ "" := fun h => ho (by rw [h])
          simp [fileTruthy, this]
      rw [this _ h1, this _ h2]

/-- Witness for the amended C6: a user with an uploaded (non-empty)
senior-citizen document is classified priority by every classifier. -/
theorem C6_witness :
    ((⟨1, some "sc.png", none⟩ : User).senior_citizen_id ≠ some "" ∧
      (⟨1, some "sc.png", none⟩ : User).pwd_id ≠ some "") ∧
    (⟨1, some "sc.png", none⟩ : User).is_priority_user =
      (⟨1, some "sc.png", none⟩ : User).specPriority ∧
    (⟨1, some "sc.png", none⟩ : User).isNullPriority =
      (⟨1, some "sc.png", none⟩ : User).specPriority := by
  have h := C6_classifiers_agree_except_partition ⟨1, some "sc.png", none⟩
  exact ⟨⟨by decide, by decide⟩, h.2.1, (h.2.2.2.2 ⟨by decide, by decide⟩).1⟩

/-! ## Inventory model (`apps/medicine/models.py`, `apps/medicine/views.py`) -/

/-- Lifecycle status of a medicine or a batch. -/
inductive LifeStatus where
  | active
  | archived
  deriving Repr, DecidableEq

/-- A stock batch (`class MedicineBatch`).  The three quantity columns are
Django `IntegerField`s, so they are embedded as `Int`.  `batch_id` is a
`CharField`; `expiry_date` and `date_received` are `DateField`s embedded as
day numbers. -/
structure Batch where
  batch_id : String
  medicine_id : Nat
  expiry_date : Nat
  date_received : Nat
  quantity_received : Int
  quantity_available : Int
  quantity_dispensed : Int
  status : LifeStatus
  deriving Repr, DecidableEq

/-- Kernel-computable lexicographic comparison of character lists; realizes
the ordering of a SQL `CharField` under `ORDER BY`. -/
def charListLe : List Char → List Char → Bool
  | [], _ => true
  | _ :: _, [] => false
  | a :: as, b :: bs =>
    if a < b then true else if b < a then false else charListLe as bs

/-- String comparison used for `ORDER BY batch_id`. -/
def strLe (a b : String) : Bool := charListLe a.data b.data

/-- The FEFO ordering `order_by('expiry_date', 'batch_id')`. -/
def fefoLe (a b : Batch) : Prop :=
  a.expiry_date < b.expiry_date ∨
    (a.expiry_date = b.expiry_date ∧ strLe a.batch_id b.batch_id = true)

instance : DecidableRel fefoLe := fun a b => by
  unfold fefoLe
  infer_instance

/-- Embeds `MedicineBatch.dispense` (`apps/medicine/models.py`): refuse if
the requested quantity exceeds `quantity_available`, otherwise move the
quantity from `quantity_available` to `quantity_dispensed`.  Returns the
saved batch and the method's boolean result. -/
def MedicineBatch.dispense (b : Batch) (quantity : Int) : Batch × Bool :=
  if b.quantity_available < quantity then (b, false)
  else
    ({ b with
        quantity_available := b.quantity_available - quantity,
        quantity_dispensed := b.quantity_dispensed + quantity }, true)

/-- Embeds `Medicine.total_stock` (`apps/medicine/models.py`): the sum of
`quantity_available` over the medicine's active batches. -/
def Medicine.total_stock (mid : Nat) (db : List Batch) : Int :=
  ((db.filter fun b => b.medicine_id = mid ∧ b.status = .active).map
    (·.quantity_available)).sum

/-- The queryset behind `Medicine.get_next_expiring_batch`: the medicine's
active batches with `quantity_available > 0`, sorted by
`(expiry_date, batch_id)` ascending. -/
def fefoBatches (mid : Nat) (db : List Batch) : List Batch :=
  List.insertionSort fefoLe
    (db.filter fun b =>
      b.medicine_id = mid ∧ 0 < b.quantity_available ∧ b.status = .active)

/-- Embeds `Medicine.get_next_expiring_batch`: first batch of the FEFO
queryset, if any. -/
def Medicine.get_next_expiring_batch (mid : Nat) (db : List Batch) : Option Batch :=
  (fefoBatches mid db).head?

/-- Embeds the batch-creation path of the `medicine_stock` view
(`apps/medicine/views.py`): after the date and quantity validations, a new
active batch is created with `quantity_received = quantity_available =
quantity` and `quantity_dispensed = 0`.  `none` models the error redirects. -/
def medicine_stock_create (bid : String) (mid : Nat)
    (expiry_date date_received today : Nat) (quantity : Int) : Option Batch :=
  if today < date_received then none
  else if expiry_date ≤ today then none
  else if expiry_date ≤ date_received then none
  else if quantity ≤ 0 then none
  else some
    { batch_id := bid, medicine_id := mid, expiry_date := expiry_date,
      date_received := date_received, quantity_received := quantity,
      quantity_available := quantity, quantity_dispensed := 0,
      status := .active }

/-- Embeds the quantity part of the `edit_medicine` view
(`apps/medicine/views.py`): reject if `quantity_available >
quantity_received`, otherwise store both and set `quantity_dispensed =
quantity_received - quantity_available`.  `none` models the error redirect. -/
def edit_medicine_quantities (quantity_received quantity_available : Int)
    (b : Batch) : Option Batch :=
  if quantity_available > quantity_received then none
  else some
    { b with
        quantity_received := quantity_received,
        quantity_available := quantity_available,
        quantity_dispensed := quantity_received - quantity_available }

/-- The batch counter invariant of the data model:
`quantity_available + quantity_dispensed = quantity_received` and
`quantity_available ≥ 0`. -/
def batchInv (b : Batch) : Prop :=
  b.quantity_available + b.quantity_dispensed = b.quantity_received ∧
    0 ≤ b.quantity_available

/-! ## The FEFO allocator

The repository defines the building blocks (`MedicineBatch.dispense`,
`Medicine.get_next_expiring_batch`) but contains no caller that walks the
batches; the loop below is modelled from the specification, section 4.2. -/

/-- Modelled from the spec: the walk of §4.2 — given the fetched FEFO-sorted
batches, take `min(batch.quantity_available, remaining)` from each batch in
turn until `remaining` reaches zero, recording the consumed amount per
`batch_id`.  The fetched batches all have positive availability. -/
def allocWalk : List Batch → Nat → List (String × Nat)
  | [], _ => []
  | b :: bs, remaining =>
    if remaining = 0 then []
    else
      let take := min b.quantity_available.toNat remaining
      (b.batch_id, take) :: allocWalk bs (remaining - take)

/-- Modelled from the spec: commit the recorded deductions — for each touched
batch of the medicine, move the taken amount from `quantity_available` to
`quantity_dispensed` (the per-batch mutation of `MedicineBatch.dispense`). -/
def allocCommit (mid : Nat) (takes : List (String × Nat)) (db : List Batch) :
    List Batch :=
  db.map fun b =>
    if b.medicine_id = mid then
      match takes.lookup b.batch_id with
      | some t =>
          { b with
              quantity_available := b.quantity_available - (t : Int),
              quantity_dispensed := b.quantity_dispensed + (t : Int) }
      | none => b
    else b

/-- Result of an allocation request. -/
inductive AllocResult where
  | committed
  | insufficientStock
  deriving Repr, DecidableEq

/-- Modelled from the spec: `allocate(medicine, quantity)` of §4.2 — fetch
the active batches with positive availability in FEFO order, sum their
`quantity_available`; if the sum is less than the requested quantity fail
with InsufficientStock and mutate nothing, otherwise walk the sorted batches
committing the deductions.  Returns the post-state and the outcome. -/
def allocate (mid : Nat) (quantity : Nat) (db : List Batch) :
    List Batch × AllocResult :=
  let fetched := fefoBatches mid db
  if (fetched.map (·.quantity_available)).sum < (quantity : Int) then
    (db, .insufficientStock)
  else
    (allocCommit mid (allocWalk fetched quantity) db, .committed)

/-! ## Claim C9: the batch counter invariant -/

/-- Claim C9 as stated: every operation that mutates a batch's counters —
FEFO dispense, batch creation, and the admin batch edit — preserves
`quantity_available + quantity_dispensed = quantity_received` with
`quantity_available ≥ 0`. -/
def C9ClaimStatement : Prop :=
  (∀ (b : Batch) (q : Int), batchInv b → batchInv (MedicineBatch.dispense b q).1) ∧
  (∀ (bid : String) (mid ed dr today : Nat) (q : Int) (nb : Batch),
      medicine_stock_create bid mid ed dr today q = some nb → batchInv nb) ∧
  (∀ (qr qa : Int) (b nb : Batch), batchInv b →
      edit_medicine_quantities qr qa b = some nb → batchInv nb)

/-- Claim C9 is false: the admin batch edit validates only
`quantity_available ≤ quantity_received`, not `quantity_available ≥ 0`, so
submitting `quantity_received = 10, quantity_available = -5` on a valid
batch succeeds and leaves `quantity_available = -5 < 0`. -/
theorem C9_counterexample : ¬ C9ClaimStatement := by
  intro h
  have hb : batchInv ⟨"BATCH-001", 1, 100, 10, 10, 4, 6, .active⟩ := by
    constructor <;> decide
  have h5 := h.2.2 10 (-5) ⟨"BATCH-001", 1, 100, 10, 10, 4, 6, .active⟩
    ⟨"BATCH-001", 1, 100, 10, 10, -5, 15, .active⟩ hb (by decide)
  exact absurd h5.2 (by decide)

/-- Claim C9 amended: FEFO dispense and batch creation preserve the full
invariant; the admin batch edit always preserves the sum equation
`quantity_available + quantity_dispensed = quantity_received`, and preserves
the full invariant whenever the submitted available quantity is nonnegative
(the view checks `quantity_available ≤ quantity_received` but not
`quantity_available ≥ 0`). -/
theorem C9_invariant_preservation :
    (∀ (b : Batch) (q : Int), batchInv b → batchInv (MedicineBatch.dispense b q).1) ∧
    (∀ (bid : String) (mid ed dr today : Nat) (q : Int) (nb : Batch),
        medicine_stock_create bid mid ed dr today q = some nb → batchInv nb) ∧
    (∀ (qr qa : Int) (b nb : Batch),
        edit_medicine_quantities qr qa b = some nb →
          nb.quantity_available + nb.quantity_dispensed = nb.quantity_received ∧
          (0 ≤ qa → batchInv nb)) := by
  refine ⟨?_, ?_, ?_⟩
  · intro b q hinv
    unfold MedicineBatch.dispense
    split
    · exact hinv
    · obtain ⟨hsum, hge⟩ := hinv
      constructor
      · simp only
        omega
      · simp only
        omega
  · intro bid mid ed dr today q nb hq
    unfold medicine_stock_create at hq
    repeat' split at hq
    any_goals exact Option.noConfusion hq
    injection hq with hq
    subst hq
    refine ⟨by simp, by simp only; omega⟩
  · intro qr qa b nb hq
    unfold edit_medicine_quantities at hq
    split at hq
    · exact absurd hq (by simp)
    · injection hq with hq
      subst hq
      refine ⟨by simp only; ring, fun hqa => ⟨by simp only; ring, hqa⟩⟩

/-- Witness for the amended C9 at concrete inputs: dispensing 3 from a
10/4/6 batch, creating a batch of 20, and editing to 8 received / 3
available all preserve the invariant. -/
theorem C9_witness :
    (batchInv ⟨"BATCH-001", 1, 100, 10, 10, 4, 6, .active⟩ ∧
      batchInv (MedicineBatch.dispense ⟨"BATCH-001", 1, 100, 10, 10, 4, 6, .active⟩ 3).1) ∧
    (medicine_stock_create "BATCH-002" 1 200 10 20 20 =
        some ⟨"BATCH-002", 1, 200, 10, 20, 20, 0, .active⟩ ∧
      batchInv ⟨"BATCH-002", 1, 200, 10, 20, 20, 0, .active⟩) ∧
    ((0 : Int) ≤ 3 ∧
      batchInv ⟨"BATCH-001", 1, 100, 10, 8, 3, 5, .active⟩) := by
  have h := C9_invariant_preservation
  refine ⟨⟨⟨by decide, by decide⟩, ?_⟩, ⟨by decide, ?_⟩, by decide, ?_⟩
  · exact h.1 ⟨"BATCH-001", 1, 100, 10, 10, 4, 6, .active⟩ 3 ⟨by decide, by decide⟩
  · exact h.2.1 "BATCH-002" 1 200 10 20 20
      ⟨"BATCH-002", 1, 200, 10, 20, 20, 0, .active⟩ (by decide)
  · exact ((h.2.2 8 3 ⟨"BATCH-001", 1, 100, 10, 10, 4, 6, .active⟩
      ⟨"BATCH-001", 1, 100, 10, 8, 3, 5, .active⟩ (by decide)).2 (by decide))

/-! ## Claim C5: insufficient stock makes no mutation -/

/-- Sums of a function over two boolean filters agree when the predicates
differ only on elements where the function vanishes. -/
theorem sum_filter_congr_zero {α : Type} (f : α → Int) (p q : α → Bool) :
    ∀ l : List α,
      (∀ b ∈ l, (p b = true → q b = true) ∧
        (q b = true → p b = true ∨ f b = 0)) →
      ((l.filter p).map f).sum = ((l.filter q).map f).sum := by
  intro l
  induction l with
  | nil => intro _; rfl
  | cons b rest ih =>
    intro h
    have hb := h b (List.mem_cons_self b rest)
    have hr := ih fun x hx => h x (List.mem_cons_of_mem b hx)
    cases hp : p b <;> cases hq : q b
    · simp [List.filter_cons, hp, hq, hr]
    · rcases hb.2 hq with h1 | h1
      · rw [hp] at h1; exact Bool.noConfusion h1
      · simp [List.filter_cons, hp, hq, hr, h1]
    · have := hb.1 hp
      rw [hq] at this
      exact Bool.noConfusion this
    · simp [List.filter_cons, hp, hq, hr]

/-- Under the data-model invariant, the availability summed over the FEFO
queryset (positive-availability active batches) equals `total_stock` (all
active batches). -/
theorem fefo_sum_eq_total_stock (mid : Nat) (db : List Batch)
    (hpos : ∀ b ∈ db, b.medicine_id = mid → b.status = .active →
      0 ≤ b.quantity_available) :
    ((fefoBatches mid db).map (·.quantity_available)).sum =
      Medicine.total_stock mid db := by
  have hperm :
      ((fefoBatches mid db).map (·.quantity_available)).sum =
        (((db.filter fun b =>
            b.medicine_id = mid ∧ 0 < b.quantity_available ∧
              b.status = .active).map (·.quantity_available)).sum) := by
    exact ((List.perm_insertionSort fefoLe _).map (·.quantity_available)).sum_eq
  rw [hperm]
  unfold Medicine.total_stock
  apply sum_filter_congr_zero
  intro b hb
  constructor
  · intro h
    simp only [decide_eq_true_eq] at h ⊢
    exact ⟨h.1, h.2.2⟩
  · intro h
    simp only [decide_eq_true_eq] at h ⊢
    by_cases h0 : 0 < b.quantity_available
    · exact Or.inl ⟨h.1, h0, h.2⟩
    · refine Or.inr ?_
      have := hpos b hb h.1 h.2
      omega

/-- Claim C5: requesting strictly more than the total available stock over
the medicine's active batches returns InsufficientStock and leaves every
batch's counters exactly as they were (hypotheses: the data-model invariant
`quantity_available ≥ 0` on the medicine's active batches). -/
theorem C5_insufficient_stock_no_mutation (mid q : Nat) (db : List Batch)
    (hpos : ∀ b ∈ db, b.medicine_id = mid → b.status = .active →
      0 ≤ b.quantity_available)
    (hgt : Medicine.total_stock mid db < (q : Int)) :
    allocate mid q db = (db, .insufficientStock) := by
  show (if ((fefoBatches mid db).map (·.quantity_available)).sum < (q : Int) then
      (db, AllocResult.insufficientStock)
    else (allocCommit mid (allocWalk (fefoBatches mid db) q) db,
      AllocResult.committed)) = (db, AllocResult.insufficientStock)
  rw [fefo_sum_eq_total_stock mid db hpos, if_pos hgt]

/-- Witness for C5: requesting 6 from a single active batch holding 5
fails with InsufficientStock and returns the batch list unchanged. -/
theorem C5_witness :
    (∀ b ∈ [(⟨"BATCH-001", 1, 100, 10, 5, 5, 0, .active⟩ : Batch)],
        b.medicine_id = 1 → b.status = .active → 0 ≤ b.quantity_available) ∧
    Medicine.total_stock 1 [⟨"BATCH-001", 1, 100, 10, 5, 5, 0, .active⟩] < 6 ∧
    allocate 1 6 [⟨"BATCH-001", 1, 100, 10, 5, 5, 0, .active⟩] =
      ([⟨"BATCH-001", 1, 100, 10, 5, 5, 0, .active⟩], .insufficientStock) := by
  refine ⟨by decide, by decide, ?_⟩
  exact C5_insufficient_stock_no_mutation 1 6 _ (by decide) (by decide)

/-! ## Claim C4: the FEFO walk takes min(available, remaining) in order -/

/-- Availability (in units) of the batches strictly before `b` in the
FEFO-sorted fetch. -/
def fefoBefore (fetched : List Batch) (b : Batch) : Nat :=
  ((fetched.takeWhile fun x => x.batch_id ≠ b.batch_id).map
    (·.quantity_available.toNat)).sum

/-- Closed form of the amount the FEFO walk takes from batch `b`:
the batches before `b` absorb `fefoBefore` units of the request, and `b`
yields the minimum of its availability and what remains. -/
def fefoTake (q : Nat) (fetched : List Batch) (b : Batch) : Nat :=
  min b.quantity_available.toNat (q - fefoBefore fetched b)

/-- Unfolding equation for `allocWalk` on a nonempty fetch. -/
theorem allocWalk_cons (b : Batch) (bs : List Batch) (r : Nat) :
    allocWalk (b :: bs) r =
      if r = 0 then []
      else (b.batch_id, min b.quantity_available.toNat r) ::
        allocWalk bs (r - min b.quantity_available.toNat r) := rfl

/-- A lookup misses when no recorded key matches. -/
theorem lookup_eq_none_of_forall (key : String) :
    ∀ ps : List (String × Nat), (∀ p ∈ ps, p.1 ≠ key) → ps.lookup key = none := by
  intro ps
  induction ps with
  | nil => intro _; rfl
  | cons p rest ih =>
    intro h
    have hne : p.1 ≠ key := h p (List.mem_cons_self p rest)
    obtain ⟨k, v⟩ := p
    have hbeq : (key == k) = false := beq_eq_false_iff_ne.mpr fun he => hne he.symm
    simp only [List.lookup, hbeq]
    exact ih fun x hx => h x (List.mem_cons_of_mem _ hx)

/-- Every key recorded by the walk names a fetched batch. -/
theorem allocWalk_keys :
    ∀ (l : List Batch) (r : Nat), ∀ p ∈ allocWalk l r,
      ∃ x ∈ l, p.1 = x.batch_id := by
  intro l
  induction l with
  | nil => intro r p hp; cases hp
  | cons c cs ih =>
    intro r p hp
    rw [allocWalk_cons] at hp
    by_cases hr : r = 0
    · rw [if_pos hr] at hp; cases hp
    · rw [if_neg hr] at hp
      rcases List.mem_cons.mp hp with rfl | hp
      · exact ⟨c, List.mem_cons_self c cs, rfl⟩
      · obtain ⟨x, hx, hxe⟩ := ih _ p hp
        exact ⟨x, List.mem_cons_of_mem c hx, hxe⟩

/-- The walk's recorded take for a fetched batch `b` is exactly the greedy
closed form `min(available, request - availability before b)`, recorded only
when nonzero. -/
theorem allocWalk_lookup (l : List Batch) (r : Nat)
    (hpos : ∀ x ∈ l, 0 < x.quantity_available)
    (hnd : (l.map (·.batch_id)).Nodup) (b : Batch) (hb : b ∈ l) :
    (allocWalk l r).lookup b.batch_id =
      if min b.quantity_available.toNat (r - fefoBefore l b) = 0 then none
      else some (min b.quantity_available.toNat (r - fefoBefore l b)) := by
  induction l generalizing r with
  | nil => cases hb
  | cons c cs ih =>
    rw [allocWalk_cons]
    by_cases hr : r = 0
    · subst hr
      rw [if_pos rfl]
      simp [Nat.zero_sub]
    · rw [if_neg hr]
      rcases List.mem_cons.mp hb with rfl | hbcs
      · have hbefore : fefoBefore (b :: cs) b = 0 := by
          unfold fefoBefore
          rw [List.takeWhile_cons]
          simp
        have hqa : 0 < b.quantity_available :=
          hpos b (List.mem_cons_self b cs)
        have ht0 : min b.quantity_available.toNat r ≠ 0 := by
          have h1 : 0 < b.quantity_available.toNat := by omega
          have h2 : 0 < r := Nat.pos_of_ne_zero hr
          omega
        have hbeq : (b.batch_id == b.batch_id) = true := beq_self_eq_true _
        simp only [List.lookup, hbeq]
        rw [hbefore]
        simp only [Nat.sub_zero]
        rw [if_neg ht0]
      · have hcid : c.batch_id ∉ cs.map (·.batch_id) :=
          (List.nodup_cons.mp hnd).1
        have hne : c.batch_id ≠ b.batch_id := by
          intro he
          exact hcid (he ▸ List.mem_map_of_mem (·.batch_id) hbcs)
        have hbefore : fefoBefore (c :: cs) b =
            c.quantity_available.toNat + fefoBefore cs b := by
          unfold fefoBefore
          rw [List.takeWhile_cons]
          simp [hne]
        have ihcs := ih (r - min c.quantity_available.toNat r)
          (fun x hx => hpos x (List.mem_cons_of_mem c hx))
          (List.nodup_cons.mp hnd).2 hbcs
        have harith : r - min c.quantity_available.toNat r - fefoBefore cs b =
            r - (c.quantity_available.toNat + fefoBefore cs b) := by
          omega
        rw [harith] at ihcs
        have hbeq : (b.batch_id == c.batch_id) = false :=
          beq_eq_false_iff_ne.mpr hne.symm
        rw [hbefore]
        simp only [List.lookup, hbeq]
        exact ihcs

/-- Membership in the FEFO fetch. -/
theorem mem_fefoBatches {mid : Nat} {db : List Batch} {b : Batch} :
    b ∈ fefoBatches mid db ↔
      b ∈ db ∧ b.medicine_id = mid ∧ 0 < b.quantity_available ∧
        b.status = .active := by
  unfold fefoBatches
  rw [(List.perm_insertionSort fefoLe _).mem_iff, List.mem_filter]
  simp

/-- The FEFO fetch inherits distinct batch identifiers from the medicine's
batch list. -/
theorem fefoBatches_ids_nodup {mid : Nat} {db : List Batch}
    (hnodup : ((db.filter fun b => b.medicine_id = mid).map
      (·.batch_id)).Nodup) :
    ((fefoBatches mid db).map (·.batch_id)).Nodup := by
  have hsub : List.Sublist
      (db.filter fun b =>
        b.medicine_id = mid ∧ 0 < b.quantity_available ∧
          b.status = LifeStatus.active)
      (db.filter fun b => b.medicine_id = mid) := by
    apply List.monotone_filter_right
    intro a ha
    simp only [decide_eq_true_eq] at ha ⊢
    exact ha.1
  have h1 := ((hsub.map (·.batch_id)).nodup hnodup)
  exact (((List.perm_insertionSort fefoLe _).map (·.batch_id)).nodup_iff).mpr h1

/-- Claim C4: for a request `q` with `0 < q` no larger than the fetched
availability, allocation commits and each batch of the medicine's active
positive-availability fetch ends with
`quantity_available - min(quantity_available, q - availability of earlier
batches in (expiry_date, batch_id) order)`, the complement moving to
`quantity_dispensed`; all other batches are untouched. -/
theorem C4_fefo_allocation_closed_form (mid q : Nat) (db : List Batch)
    (hnodup : ((db.filter fun b => b.medicine_id = mid).map
      (·.batch_id)).Nodup)
    (hq : 0 < q)
    (hle : (q : Int) ≤ ((fefoBatches mid db).map (·.quantity_available)).sum) :
    allocate mid q db =
      (db.map fun b =>
        if b.medicine_id = mid ∧ b.status = .active ∧
            0 < b.quantity_available then
          { b with
              quantity_available := b.quantity_available -
                (fefoTake q (fefoBatches mid db) b : Int),
              quantity_dispensed := b.quantity_dispensed +
                (fefoTake q (fefoBatches mid db) b : Int) }
        else b, .committed) := by
  have hfpos : ∀ x ∈ fefoBatches mid db, 0 < x.quantity_available :=
    fun x hx => (mem_fefoBatches.mp hx).2.2.1
  have hfnd := fefoBatches_ids_nodup hnodup
  show (if ((fefoBatches mid db).map (·.quantity_available)).sum < (q : Int) then
      (db, AllocResult.insufficientStock)
    else (allocCommit mid (allocWalk (fefoBatches mid db) q) db,
      AllocResult.committed)) = _
  rw [if_neg (not_lt.mpr hle)]
  refine Prod.ext ?_ rfl
  show allocCommit mid (allocWalk (fefoBatches mid db) q) db = _
  unfold allocCommit
  apply List.map_congr_left
  intro b hb
  show (if b.medicine_id = mid then
      match (allocWalk (fefoBatches mid db) q).lookup b.batch_id with
      | some t =>
          { b with
              quantity_available := b.quantity_available - (t : Int),
              quantity_dispensed := b.quantity_dispensed + (t : Int) }
      | none => b
    else b) = _
  by_cases hm : b.medicine_id = mid
  · by_cases hcond : b.status = LifeStatus.active ∧ 0 < b.quantity_available
    · have hbf : b ∈ fefoBatches mid db :=
        mem_fefoBatches.mpr ⟨hb, hm, hcond.2, hcond.1⟩
      have hlk := allocWalk_lookup (fefoBatches mid db) q hfpos hfnd b hbf
      rw [if_pos hm, if_pos ⟨hm, hcond.1, hcond.2⟩]
      by_cases ht : fefoTake q (fefoBatches mid db) b = 0
      · unfold fefoTake at ht
        rw [ht] at hlk
        rw [if_pos rfl] at hlk
        rw [hlk]
        unfold fefoTake
        rw [ht]
        simp
      · unfold fefoTake at ht
        rw [if_neg ht] at hlk
        rw [hlk]
        rfl
    · have hnotin : ∀ p ∈ allocWalk (fefoBatches mid db) q,
          p.1 ≠ b.batch_id := by
        intro p hp he
        obtain ⟨x, hx, hxe⟩ := allocWalk_keys _ q p hp
        have hxdb := mem_fefoBatches.mp hx
        have hxm : x ∈ db.filter fun b => b.medicine_id = mid :=
          List.mem_filter.mpr ⟨hxdb.1, by simpa using hxdb.2.1⟩
        have hbm : b ∈ db.filter fun b => b.medicine_id = mid :=
          List.mem_filter.mpr ⟨hb, by simpa using hm⟩
        have hxb : x = b :=
          List.inj_on_of_nodup_map hnodup hxm hbm (hxe ▸ he)
        subst hxb
        exact hcond ⟨hxdb.2.2.2, hxdb.2.2.1⟩
      rw [if_pos hm,
        if_neg (fun hcc : _ ∧ _ ∧ _ => hcond ⟨hcc.2.1, hcc.2.2⟩),
        lookup_eq_none_of_forall b.batch_id _ hnotin]
  · rw [if_neg hm, if_neg (fun hcc : _ ∧ _ ∧ _ => hm hcc.1)]

/-- Witness for C4: the specification's example — batches (expiry Jan,
available 5) and (expiry Feb, available 10), request 8 — ends with the
January batch at 0 available / 5 dispensed and the February batch at 7
available / 3 dispensed. -/
theorem C4_witness :
    ((([(⟨"BATCH-001", 1, 31, 1, 5, 5, 0, .active⟩ : Batch),
        ⟨"BATCH-002", 1, 59, 1, 10, 10, 0, .active⟩].filter
          fun b => b.medicine_id = 1).map (·.batch_id)).Nodup ∧
      (0 : Nat) < 8 ∧
      (8 : Int) ≤ ((fefoBatches 1
        [⟨"BATCH-001", 1, 31, 1, 5, 5, 0, .active⟩,
          ⟨"BATCH-002", 1, 59, 1, 10, 10, 0, .active⟩]).map
            (·.quantity_available)).sum) ∧
    allocate 1 8
        [⟨"BATCH-001", 1, 31, 1, 5, 5, 0, .active⟩,
          ⟨"BATCH-002", 1, 59, 1, 10, 10, 0, .active⟩] =
      ([⟨"BATCH-001", 1, 31, 1, 5, 0, 5, .active⟩,
          ⟨"BATCH-002", 1, 59, 1, 10, 7, 3, .active⟩], .committed) := by
  refine ⟨⟨by decide, by decide, by decide⟩, ?_⟩
  rw [C4_fefo_allocation_closed_form 1 8 _ (by decide) (by decide) (by decide)]
  decide

/-! ## Order model and queue registry (`apps/orders/models.py`) -/

/-- Order status (`Order.STATUS_CHOICES`). -/
inductive OrderStatus where
  | pending
  | processing
  | shipped
  | completed
  | cancelled
  deriving Repr, DecidableEq

/-- An order is active when its status is Pending or Processing. -/
def OrderStatus.isActive : OrderStatus → Bool
  | .pending => true
  | .processing => true
  | _ => false

/-- An order row (`class Order`); `id` is the primary key, `driver` a
nullable `CharField`, `queue_number` a nullable `PositiveIntegerField`.
Timestamp columns are not consumed by the queue logic and are omitted. -/
structure Order where
  id : Nat
  user : User
  status : OrderStatus
  driver : Option String
  queue_number : Option Nat
  deriving Repr, DecidableEq

/-- Django's `instance.save()` on a table: replace the row with the
instance's primary key, or insert the row if the key is absent. -/
def saveRow (t : List Order) (o : Order) : List Order :=
  if t.any fun x => x.id = o.id then
    t.map fun x => if x.id = o.id then o else x
  else t ++ [o]

/-- The row predicate of the `pending_orders` queryset in
`assign_queue_number`: status in (Pending, Processing), non-NULL
queue_number, primary key different from `self`. -/
def isPendingRow (selfId : Nat) (o : Order) : Bool :=
  o.status.isActive && o.queue_number.isSome && o.id ≠ selfId

/-- The `pending_orders` queryset of `assign_queue_number`. -/
def pendingOrders (selfId : Nat) (t : List Order) : List Order :=
  t.filter (isPendingRow selfId)

/-- Largest queue number of a list of orders (the queue number of
`queryset.order_by('queue_number').last()`, resp.
`queryset.order_by('-queue_number').first()`, whose only consumed field is
its queue number); 0 for an empty queryset, which the call sites guard
against. -/
def maxQn (l : List Order) : Nat :=
  (l.filterMap (·.queue_number)).foldr max 0

/-- Shift an order's queue number up by one (`order.queue_number += 1`). -/
def bumpOrder (o : Order) : Order :=
  { o with queue_number := o.queue_number.map (· + 1) }

/-- The shift loop of the first priority branch of `assign_queue_number`:
bump every pending row whose queue number is at or after the insert
position. -/
def shiftGe (selfId pos : Nat) (t : List Order) : List Order :=
  t.map fun o =>
    if isPendingRow selfId o && pos ≤ o.queue_number.getD 0 then bumpOrder o
    else o

/-- The shift loop of the second priority branch of `assign_queue_number`:
bump every pending row. -/
def shiftAllPending (selfId : Nat) (t : List Order) : List Order :=
  t.map fun o => if isPendingRow selfId o then bumpOrder o else o

/-- Embeds `Order.assign_queue_number` (`apps/orders/models.py`).  The
method mutates the table row by row and finally saves `self`; the result is
the new table together with the saved `self` instance.  Branch structure is
the source's: priority insert after the last priority order shifting the
tail, priority insert at position 1 shifting everything, priority append
when no regular orders exist, and regular append at the maximum plus one. -/
def assign_queue_number (selfO : Order) (t : List Order) :
    List Order × Order :=
  let pending := pendingOrders selfO.id t
  if selfO.user.selfPriority then
    let regular := pending.filter fun o => o.user.isNullRegular
    let priority := pending.filter fun o => o.user.isNullPriority
    if regular.isEmpty = false then
      if priority.isEmpty = false then
        -- insert right after the last priority order, shifting every
        -- pending order at or after that position up by one
        let pos := maxQn priority + 1
        let self' := { selfO with queue_number := some pos }
        (saveRow (shiftGe selfO.id pos t) self', self')
      else
        -- no priority orders: insert at position 1, shifting every pending
        -- order up by one
        let self' := { selfO with queue_number := some 1 }
        (saveRow (shiftAllPending selfO.id t) self', self')
    else
      if priority.isEmpty = false then
        -- only priority orders in the queue: append after the last one
        let self' := { selfO with queue_number := some (maxQn priority + 1) }
        (saveRow t self', self')
      else
        -- no orders at all
        let self' := { selfO with queue_number := some 1 }
        (saveRow t self', self')
  else
    if pending.isEmpty = false then
      -- regular users always append after the highest queue number
      let self' := { selfO with queue_number := some (maxQn pending + 1) }
      (saveRow t self', self')
    else
      let self' := { selfO with queue_number := some 1 }
      (saveRow t self', self')

/-- Embeds `Order.remove_from_queue` (`apps/orders/models.py`): when
`self.queue_number` is truthy (Python: non-None and nonzero), decrement the
queue number of every active order whose number is greater, then clear
`self`'s queue number and save.  Otherwise do nothing. -/
def remove_from_queue (selfO : Order) (t : List Order) : List Order :=
  if selfO.queue_number.getD 0 ≠ 0 then
    saveRow
      (t.map fun o =>
        if o.status.isActive &&
            selfO.queue_number.getD 0 < o.queue_number.getD 0 then
          { o with queue_number := o.queue_number.map (· - 1) }
        else o)
      { selfO with queue_number := none }
  else t

/-! ## Claim C8: retire frame conditions -/

/-- Decomposition of `saveRow` at a present key. -/
theorem saveRow_eq_of_mem (t₁ t₂ : List Order) (o y : Order)
    (hid : ((t₁ ++ o :: t₂).map (·.id)).Nodup) (hy : y.id = o.id) :
    saveRow (t₁ ++ o :: t₂) y = t₁ ++ y :: t₂ := by
  unfold saveRow
  rw [if_pos]
  · rw [List.map_append, List.map_cons]
    congr 1
    · apply (List.map_congr_left fun x hx => ?_).trans (List.map_id t₁)
      have hxid : x.id ≠ y.id := by
        intro he
        rw [List.map_append, List.map_cons] at hid
        exact (List.nodup_append.mp hid).2.2
          (List.mem_map_of_mem (·.id) hx)
          (by rw [he, hy]; exact List.mem_cons_self o.id _)
      rw [if_neg hxid]
      rfl
    · rw [if_pos hy.symm]
      congr 1
      apply (List.map_congr_left fun x hx => ?_).trans (List.map_id t₂)
      have hxid : x.id ≠ y.id := by
        intro he
        rw [List.map_append, List.map_cons] at hid
        have h2 := (List.nodup_append.mp hid).2.1
        exact (List.nodup_cons.mp h2).1
          (by rw [← hy, ← he]; exact List.mem_map_of_mem (·.id) hx)
      rw [if_neg hxid]
      rfl
  · refine List.any_eq_true.mpr ⟨o, ?_, by simpa using hy.symm⟩
    exact List.mem_append_right t₁ (List.mem_cons_self o t₂)

/-- Closed form of `remove_from_queue` on an order to be retired: the
retired row is cleared, every active row with a greater queue number is
decremented, every other row is unchanged. -/
theorem remove_from_queue_eq (t : List Order) (o : Order) (k : Nat)
    (hmem : o ∈ t) (hnodup : (t.map (·.id)).Nodup)
    (hk : o.queue_number = some k) (hkpos : 0 < k) :
    remove_from_queue o t = t.map fun x =>
      if x.id = o.id then { o with queue_number := none }
      else if x.status.isActive ∧ k < x.queue_number.getD 0 then
        { x with queue_number := x.queue_number.map (· - 1) }
      else x := by
  unfold remove_from_queue
  rw [hk]
  simp only [Option.getD_some]
  rw [if_pos (Nat.pos_iff_ne_zero.mp hkpos)]
  obtain ⟨t₁, t₂, rfl⟩ := List.append_of_mem hmem
  set shiftF : Order → Order := fun x =>
    if x.status.isActive && k < x.queue_number.getD 0 then
      { x with queue_number := x.queue_number.map (· - 1) }
    else x with hshiftF
  have ho : shiftF o = o := by
    rw [hshiftF]
    exact if_neg (by simp [hk])
  have hco : ((fun x : Order => x.id) ∘ shiftF) = fun x : Order => x.id := by
    funext x
    rw [hshiftF]
    by_cases hx : (x.status.isActive && k < x.queue_number.getD 0) = true <;>
      simp [Function.comp, hx]
  have hmapnd :
      ((t₁.map shiftF ++ o :: t₂.map shiftF).map (·.id)).Nodup := by
    have hsplit : t₁.map shiftF ++ o :: t₂.map shiftF =
        (t₁ ++ o :: t₂).map shiftF := by
      simp only [List.map_append, List.map_cons, ho]
    rw [hsplit, List.map_map, hco]
    exact hnodup
  simp only [List.map_append, List.map_cons]
  rw [ho]
  rw [saveRow_eq_of_mem _ _ o { o with queue_number := none } hmapnd rfl]
  congr 1
  · apply List.map_congr_left
    intro x hx
    have hxid : x.id ≠ o.id := by
      intro he
      rw [List.map_append, List.map_cons] at hnodup
      exact (List.nodup_append.mp hnodup).2.2
        (List.mem_map_of_mem (·.id) hx)
        (he ▸ List.mem_cons_self o.id _)
    rw [if_neg hxid]
    simp only [hshiftF]
    by_cases hc : (x.status.isActive && k < x.queue_number.getD 0) = true
    · rw [if_pos hc, if_pos (by simpa using hc)]
    · rw [if_neg hc, if_neg (by simpa using hc)]
  · congr 1
    apply List.map_congr_left
    intro x hx
    have hxid : x.id ≠ o.id := by
      intro he
      rw [List.map_append, List.map_cons] at hnodup
      have h2 := (List.nodup_append.mp hnodup).2.1
      exact (List.nodup_cons.mp h2).1 (he ▸ List.mem_map_of_mem (·.id) hx)
    rw [if_neg hxid]
    simp only [hshiftF]
    by_cases hc : (x.status.isActive && k < x.queue_number.getD 0) = true
    · rw [if_pos hc, if_pos (by simpa using hc)]
    · rw [if_neg hc, if_neg (by simpa using hc)]

/-- Claim C8: for an active order holding queue number `k > 0`, retire
clears that order's queue number, decrements by exactly one the queue number
of every active order whose number was greater than `k`, and leaves every
other row unchanged; for an order holding no queue number it changes
nothing. -/
theorem C8_remove_from_queue_frame (t : List Order) (o : Order)
    (hmem : o ∈ t) (hnodup : (t.map (·.id)).Nodup)
    (hact : o.status.isActive = true) :
    (∀ k, o.queue_number = some k → 0 < k →
      remove_from_queue o t = t.map fun x =>
        if x.id = o.id then { o with queue_number := none }
        else if x.status.isActive ∧ k < x.queue_number.getD 0 then
          { x with queue_number := x.queue_number.map (· - 1) }
        else x) ∧
    (o.queue_number = none → remove_from_queue o t = t) := by
  refine ⟨fun k hk hkpos => remove_from_queue_eq t o k hmem hnodup hk hkpos, ?_⟩
  intro hnone
  unfold remove_from_queue
  rw [hnone]
  simp

/-- Witness for C8 on a three-order queue: retiring the order at queue
number 1 clears it and shifts numbers 2 and 3 down to 1 and 2. -/
theorem C8_witness :
    ((⟨10, ⟨1, none, none⟩, .processing, none, some 1⟩ : Order) ∈
        ([⟨10, ⟨1, none, none⟩, .processing, none, some 1⟩,
          ⟨11, ⟨2, none, none⟩, .processing, none, some 2⟩,
          ⟨12, ⟨3, none, none⟩, .pending, none, some 3⟩] : List Order) ∧
      (([⟨10, ⟨1, none, none⟩, .processing, none, some 1⟩,
          ⟨11, ⟨2, none, none⟩, .processing, none, some 2⟩,
          ⟨12, ⟨3, none, none⟩, .pending, none, some 3⟩] : List Order).map
            (·.id)).Nodup) ∧
    remove_from_queue ⟨10, ⟨1, none, none⟩, .processing, none, some 1⟩
        [⟨10, ⟨1, none, none⟩, .processing, none, some 1⟩,
          ⟨11, ⟨2, none, none⟩, .processing, none, some 2⟩,
          ⟨12, ⟨3, none, none⟩, .pending, none, some 3⟩] =
      [⟨10, ⟨1, none, none⟩, .processing, none, none⟩,
        ⟨11, ⟨2, none, none⟩, .processing, none, some 1⟩,
        ⟨12, ⟨3, none, none⟩, .pending, none, some 2⟩] := by
  refine ⟨⟨by decide, by decide⟩, ?_⟩
  rw [(C8_remove_from_queue_frame _ _ (by decide) (by decide) (by decide)).1
    1 rfl (by decide)]
  decide

/-! ## View-level model (`apps/orders/views.py`) -/

/-- Prescription classification (`Medicine.PRESCRIPTION_TYPE_CHOICES`). -/
inductive PrescriptionType where
  | non_prescription
  | prescription
  deriving Repr, DecidableEq

/-- Order-limit classification (`Medicine.ORDER_LIMIT_CHOICES`). -/
inductive OrderLimit where
  | three_days
  | one_week
  deriving Repr, DecidableEq

/-- A catalog entry (`class Medicine`); only the fields the order engine
consumes.  `Medicine.save` forces `is_orderable` to
`prescription_type == non_prescription`, but the stored column is embedded
as-is since `can_be_ordered` reads it. -/
structure Medicine where
  id : Nat
  prescription_type : PrescriptionType
  order_limit : OrderLimit
  is_orderable : Bool
  status : LifeStatus
  deriving Repr, DecidableEq

/-- Embeds `Medicine.get_max_order_quantity`: 3 for a 3-day supply, 7 for a
1-week supply. -/
def Medicine.get_max_order_quantity (m : Medicine) : Nat :=
  match m.order_limit with
  | .three_days => 3
  | .one_week => 7

/-- Embeds `Medicine.can_be_ordered`: orderable, non-prescription and
active. -/
def Medicine.can_be_ordered (m : Medicine) : Bool :=
  m.is_orderable && m.prescription_type = PrescriptionType.non_prescription &&
    m.status = LifeStatus.active

/-- A line item (`class OrderItem`); `quantity` is a
`PositiveIntegerField`. -/
structure OrderItem where
  order_id : Nat
  medicine_id : Nat
  quantity : Nat
  special_request : Option String
  deriving Repr, DecidableEq

/-- The whole database visible to the order views. -/
structure SysState where
  nextId : Nat
  orders : List Order
  items : List OrderItem
  medicines : List Medicine
  batches : List Batch
  deriving Repr, DecidableEq

/-- Sort key realizing `order_by('queue_number')` under the SQLite backend,
where NULL sorts before every value in ascending order. -/
def qnKey (o : Order) : Nat :=
  match o.queue_number with
  | none => 0
  | some k => k + 1

/-- One step of the minimum scan realizing `.first()` on the
queue-number-ordered queryset; the first row wins ties. -/
def qnPick (acc : Option Order) (o : Order) : Option Order :=
  match acc with
  | none => some o
  | some m => if qnKey o < qnKey m then some o else some m

/-- Embeds the `next_in_queue` lookup of `delivery_page`:
`Order.objects.filter(status__in=['Pending','Processing'])
.order_by('queue_number').first()`. -/
def nextInQueue (t : List Order) : Option Order :=
  (t.filter fun o => o.status.isActive).foldl qnPick none

/-- The staff actions of the `delivery_page` POST handler. -/
inductive DeliveryAction where
  | assign_driver (driver_name : Option String)
  | process
  | ship
  | complete
  | archive
  | cancel
  | reopen
  deriving Repr, DecidableEq

/-- Outcome messages of the `delivery_page` POST handler. -/
inductive DeliveryMsg where
  | orderNotFound
  | mustProcessFirst (id : Nat) (queue_number : Option Nat)
  | driverAssigned
  | noDriverSelected
  | nowProcessing
  | noDriver
  | shipped
  | completed
  | archived
  | cancelled
  | reopened
  | cannotApply
  deriving Repr, DecidableEq

/-- The `elif` dispatch of `delivery_page` once the sequential-processing
gate has been passed.  The `archive` action sets `order.is_archived`, which
is not a field of the `Order` model in the source, so no tracked column
changes.  `completed_at` is a timestamp outside the embedded state. -/
def deliveryDispatch (order : Order) (act : DeliveryAction) (s : SysState) :
    SysState × DeliveryMsg :=
  match act with
  | .assign_driver driver_name =>
    if fileTruthy driver_name then
      ({ s with orders := saveRow s.orders { order with driver := driver_name } },
        .driverAssigned)
    else (s, .noDriverSelected)
  | .process =>
    if order.status = .pending then
      ({ s with orders := saveRow s.orders { order with status := .processing } },
        .nowProcessing)
    else (s, .cannotApply)
  | .ship =>
    if order.status = .processing then
      if fileTruthy order.driver = false then (s, .noDriver)
      else
        ({ s with orders :=
            (remove_from_queue { order with status := .shipped }
              (saveRow s.orders { order with status := .shipped })) },
          .shipped)
    else (s, .cannotApply)
  | .complete =>
    if order.status = .shipped then
      ({ s with orders := saveRow s.orders { order with status := .completed } },
        .completed)
    else (s, .cannotApply)
  | .archive =>
    if order.status = .completed then (s, .archived) else (s, .cannotApply)
  | .cancel =>
    if order.status = .pending ∨ order.status = .processing then
      ({ s with orders :=
          (remove_from_queue { order with status := .cancelled }
            (saveRow s.orders { order with status := .cancelled })) },
        .cancelled)
    else (s, .cannotApply)
  | .reopen =>
    if order.status = .completed ∨ order.status = .cancelled then
      ({ s with orders :=
          (assign_queue_number { order with status := .processing } s.orders).1 },
        .reopened)
    else (s, .cannotApply)

/-- Embeds the POST branch of `delivery_page`: look the order up, apply the
sequential-processing gate for the `process` and `ship` actions (rejecting
and naming the head of the queue when this order is not it), then dispatch
the action. -/
def delivery_post (order_id : Nat) (act : DeliveryAction) (s : SysState) :
    SysState × DeliveryMsg :=
  match s.orders.find? fun o => o.id = order_id with
  | none => (s, .orderNotFound)
  | some order =>
    if act = .process ∨ act = .ship then
      match nextInQueue s.orders with
      | some n =>
        if n.id ≠ order.id then (s, .mustProcessFirst n.id n.queue_number)
        else deliveryDispatch order act s
      | none => deliveryDispatch order act s
    else deliveryDispatch order act s

/-- Per-item validation of `order_checkout`: stock, order limit and
orderability; a dangling medicine reference fails the checkout. -/
def checkoutItemOk (it : OrderItem) (s : SysState) : Bool :=
  match s.medicines.find? fun m => m.id = it.medicine_id with
  | none => false
  | some m =>
    ((it.quantity : Int) ≤ Medicine.total_stock m.id s.batches) &&
      it.quantity ≤ m.get_max_order_quantity && m.can_be_ordered

/-- Outcomes of `order_checkout`. -/
inductive CheckoutMsg where
  | noCart
  | validationFailed
  | placed (queue_number : Option Nat)
  deriving Repr, DecidableEq

/-- Embeds `order_checkout`: find the user's Pending order, validate every
line item, and on success assign the queue number first (while the order is
still Pending) and then set the status to Processing. -/
def order_checkout (u : User) (s : SysState) : SysState × CheckoutMsg :=
  match s.orders.find? fun o => o.user.uid = u.uid ∧ o.status = .pending with
  | none => (s, .noCart)
  | some order =>
    if ((s.items.filter fun it => it.order_id = order.id).all
        fun it => checkoutItemOk it s) = false then
      (s, .validationFailed)
    else
      let r := assign_queue_number order s.orders
      ({ s with orders := saveRow r.1 { r.2 with status := .processing } },
        .placed r.2.queue_number)

/-- Outcomes of `add_to_order`. -/
inductive AddMsg where
  | medicineNotFound
  | notOrderable
  | limitExceeded
  | stockExceeded
  | added
  deriving Repr, DecidableEq

/-- Embeds the POST branch of `add_to_order` (`apps/orders/views.py`):
orderability, order-limit and stock validation, `get_or_create` of the
Pending cart (created with no queue number), then item create-or-increment
with the total-quantity limit re-check. -/
def add_to_order (u : User) (medicine_id quantity : Nat)
    (special_request : Option String) (s : SysState) : SysState × AddMsg :=
  match s.medicines.find? fun m => m.id = medicine_id with
  | none => (s, .medicineNotFound)
  | some m =>
    if m.can_be_ordered = false then (s, .notOrderable)
    else if m.get_max_order_quantity < quantity then (s, .limitExceeded)
    else if Medicine.total_stock m.id s.batches < (quantity : Int) then
      (s, .stockExceeded)
    else
      match s.orders.find? fun o => o.user.uid = u.uid ∧ o.status = .pending with
      | some order =>
        match s.items.find? fun it =>
            it.order_id = order.id ∧ it.medicine_id = medicine_id with
        | some it =>
          if m.get_max_order_quantity < it.quantity + quantity then
            (s, .limitExceeded)
          else
            ({ s with items := s.items.map fun x =>
                if x.order_id = order.id ∧ x.medicine_id = medicine_id then
                  { x with
                      quantity := x.quantity + quantity,
                      special_request :=
                        if fileTruthy special_request then special_request
                        else x.special_request }
                else x }, .added)
        | none =>
          ({ s with items :=
              s.items ++ [⟨order.id, medicine_id, quantity, special_request⟩] },
            .added)
      | none =>
        let cart : Order := ⟨s.nextId, u, .pending, none, none⟩
        ({ s with
            nextId := s.nextId + 1,
            orders := s.orders ++ [cart],
            items := s.items ++ [⟨s.nextId, medicine_id, quantity, special_request⟩] },
          .added)

/-- One public operation against the order views. -/
inductive ViewOp where
  | add (u : User) (medicine_id quantity : Nat) (special_request : Option String)
  | checkout (u : User)
  | delivery (order_id : Nat) (act : DeliveryAction)
  deriving Repr, DecidableEq

/-- Apply one public operation, discarding the outcome message. -/
def applyView (s : SysState) : ViewOp → SysState
  | .add u mid q sr => (add_to_order u mid q sr s).1
  | .checkout u => (order_checkout u s).1
  | .delivery oid act => (delivery_post oid act s).1

/-- Run a sequence of public operations against an initial catalog and
stock, starting with no orders and no items. -/
def runView (medicines : List Medicine) (batches : List Batch)
    (ops : List ViewOp) : SysState :=
  ops.foldl applyView ⟨0, [], [], medicines, batches⟩

/-! ## Claims C7 and C1: the ship action -/

/-- `Order.objects.get(id=...)` on a table with distinct primary keys finds
the member row. -/
theorem find?_id_eq_of_mem (t : List Order) (o : Order)
    (hmem : o ∈ t) (hnodup : (t.map (·.id)).Nodup) :
    (t.find? fun x => x.id = o.id) = some o := by
  induction t with
  | nil => cases hmem
  | cons a rest ih =>
    rcases List.mem_cons.mp hmem with rfl | hr
    · exact List.find?_cons_of_pos rest (by simp)
    · have hne : a.id ≠ o.id := by
        intro he
        rw [List.map_cons] at hnodup
        exact (List.nodup_cons.mp hnodup).1
          (he ▸ List.mem_map_of_mem (·.id) hr)
      rw [List.find?_cons_of_neg rest (by simpa using hne)]
      exact ih hr ((List.nodup_cons.mp (by simpa using hnodup)).2)

/-- Scan step from an empty accumulator. -/
theorem qnPick_none (o : Order) : qnPick none o = some o := rfl

/-- Scan step from a candidate: keep the smaller key, first row winning
ties. -/
theorem qnPick_some (m o : Order) :
    qnPick (some m) o = if qnKey o < qnKey m then some o else some m := rfl

/-- Key of a row without a queue number. -/
theorem qnKey_eq_zero (o : Order) (h : o.queue_number = none) : qnKey o = 0 := by
  simp [qnKey, h]

/-- Key of a row holding queue number `k`. -/
theorem qnKey_eq_succ (o : Order) (k : Nat) (h : o.queue_number = some k) :
    qnKey o = k + 1 := by
  simp [qnKey, h]

/-- The minimum scan starting from a candidate returns a row among the
candidate and the scanned rows whose key is minimal. -/
theorem qnPick_foldl_spec (l : List Order) :
    ∀ m : Order, ∃ n, l.foldl qnPick (some m) = some n ∧
      (n = m ∨ n ∈ l) ∧ qnKey n ≤ qnKey m ∧ ∀ x ∈ l, qnKey n ≤ qnKey x := by
  induction l with
  | nil =>
    intro m
    exact ⟨m, rfl, Or.inl rfl, le_refl _, fun x hx => absurd hx (by simp)⟩
  | cons a rest ih =>
    intro m
    rw [List.foldl_cons]
    by_cases hc : qnKey a < qnKey m
    · obtain ⟨n, h1, h2, h3, h4⟩ := ih a
      have hstep : qnPick (some m) a = some a := by
        rw [qnPick_some, if_pos hc]
      rw [hstep]
      refine ⟨n, h1, ?_, le_trans h3 (le_of_lt hc), ?_⟩
      · rcases h2 with rfl | h2
        · exact Or.inr (List.mem_cons_self _ _)
        · exact Or.inr (List.mem_cons_of_mem a h2)
      · intro x hx
        rcases List.mem_cons.mp hx with rfl | hx
        · exact h3
        · exact h4 x hx
    · obtain ⟨n, h1, h2, h3, h4⟩ := ih m
      have hstep : qnPick (some m) a = some m := by
        rw [qnPick_some, if_neg hc]
      rw [hstep]
      refine ⟨n, h1, ?_, h3, ?_⟩
      · rcases h2 with rfl | h2
        · exact Or.inl rfl
        · exact Or.inr (List.mem_cons_of_mem a h2)
      · intro x hx
        rcases List.mem_cons.mp hx with rfl | hx
        · exact le_trans h3 (not_lt.mp hc)
        · exact h4 x hx

/-- When some active order exists, `next_in_queue` returns an active order
of minimal queue-number key (NULL sorting first). -/
theorem nextInQueue_min (t : List Order) (b : Order)
    (hb : b ∈ t) (hbact : b.status.isActive = true) :
    ∃ n, nextInQueue t = some n ∧ n ∈ t ∧ n.status.isActive = true ∧
      ∀ x ∈ t, x.status.isActive = true → qnKey n ≤ qnKey x := by
  have hbf : b ∈ t.filter fun o => o.status.isActive := by
    rw [List.mem_filter]
    exact ⟨hb, hbact⟩
  unfold nextInQueue
  cases hfil : t.filter fun o => o.status.isActive with
  | nil => rw [hfil] at hbf; cases hbf
  | cons c cs =>
    obtain ⟨n, h1, h2, h3, h4⟩ := qnPick_foldl_spec cs c
    have hnf : n ∈ t.filter fun o => o.status.isActive := by
      rw [hfil]
      rcases h2 with rfl | h2
      · exact List.mem_cons_self _ _
      · exact List.mem_cons_of_mem c h2
    refine ⟨n, ?_, (List.mem_filter.mp hnf).1, by
        simpa using (List.mem_filter.mp hnf).2, ?_⟩
    · rw [List.foldl_cons]
      exact h1
    · intro x hx hxact
      have hxf : x ∈ t.filter fun o => o.status.isActive := by
        rw [List.mem_filter]
        exact ⟨hx, hxact⟩
      rw [hfil] at hxf
      rcases List.mem_cons.mp hxf with rfl | hxf
      · exact h3
      · exact h4 x hxf

/-- Claim C7: shipping an order that is active but does not hold the lowest
queue-number key among active orders is rejected naming the order that must
be processed first, and the whole state is unchanged. -/
theorem C7_out_of_order_ship_rejected (s : SysState) (o b : Order) (k : Nat)
    (hnodup : (s.orders.map (·.id)).Nodup)
    (hmem : o ∈ s.orders) (hact : o.status.isActive = true)
    (hk : o.queue_number = some k)
    (hb : b ∈ s.orders) (hbact : b.status.isActive = true)
    (hblt : b.queue_number = none ∨
      ∃ j, b.queue_number = some j ∧ j < k) :
    ∃ n, nextInQueue s.orders = some n ∧ n.id ≠ o.id ∧
      delivery_post o.id .ship s = (s, .mustProcessFirst n.id n.queue_number) := by
  obtain ⟨n, hn1, hn2, hn3, hn4⟩ := nextInQueue_min s.orders b hb hbact
  have hkeylt : qnKey n < qnKey o := by
    have hle := hn4 b hb hbact
    have hko : qnKey o = k + 1 := qnKey_eq_succ o k hk
    have hblt' : qnKey b < qnKey o := by
      rcases hblt with hnone | ⟨j, hj, hjlt⟩
      · rw [qnKey_eq_zero b hnone, hko]; omega
      · rw [qnKey_eq_succ b j hj, hko]; omega
    omega
  have hne : n.id ≠ o.id := by
    intro he
    have : n = o := List.inj_on_of_nodup_map hnodup hn2 hmem he
    subst this
    exact absurd hkeylt (lt_irrefl _)
  refine ⟨n, hn1, hne, ?_⟩
  unfold delivery_post
  simp only [find?_id_eq_of_mem s.orders o hmem hnodup]
  rw [if_pos (Or.inr trivial)]
  simp only [hn1]
  rw [if_pos hne]

/-- Witness for C7: with two Processing orders at queue numbers 1 and 2,
shipping the second is rejected naming the first, and the state is
unchanged. -/
theorem C7_witness :
    nextInQueue
        (SysState.mk 0
          [⟨10, ⟨1, none, none⟩, .processing, some "Marco Dela Cruz", some 1⟩,
            ⟨11, ⟨2, none, none⟩, .processing, some "Marco Dela Cruz", some 2⟩]
          [] [] []).orders =
      some ⟨10, ⟨1, none, none⟩, .processing, some "Marco Dela Cruz", some 1⟩ ∧
    delivery_post 11 .ship
        (SysState.mk 0
          [⟨10, ⟨1, none, none⟩, .processing, some "Marco Dela Cruz", some 1⟩,
            ⟨11, ⟨2, none, none⟩, .processing, some "Marco Dela Cruz", some 2⟩]
          [] [] []) =
      ((SysState.mk 0
          [⟨10, ⟨1, none, none⟩, .processing, some "Marco Dela Cruz", some 1⟩,
            ⟨11, ⟨2, none, none⟩, .processing, some "Marco Dela Cruz", some 2⟩]
          [] [] []), .mustProcessFirst 10 (some 1)) := by
  obtain ⟨n, hn1, hn2, hn3⟩ := C7_out_of_order_ship_rejected
    (SysState.mk 0
      [⟨10, ⟨1, none, none⟩, .processing, some "Marco Dela Cruz", some 1⟩,
        ⟨11, ⟨2, none, none⟩, .processing, some "Marco Dela Cruz", some 2⟩]
      [] [] [])
    ⟨11, ⟨2, none, none⟩, .processing, some "Marco Dela Cruz", some 2⟩
    ⟨10, ⟨1, none, none⟩, .processing, some "Marco Dela Cruz", some 1⟩
    2 (by decide) (by decide) (by decide) rfl (by decide) (by decide)
    (Or.inr ⟨1, rfl, by decide⟩)
  have hv : nextInQueue
      (SysState.mk 0
        [⟨10, ⟨1, none, none⟩, .processing, some "Marco Dela Cruz", some 1⟩,
          ⟨11, ⟨2, none, none⟩, .processing, some "Marco Dela Cruz", some 2⟩]
        [] [] []).orders =
      some ⟨10, ⟨1, none, none⟩, .processing, some "Marco Dela Cruz", some 1⟩ := by
    decide
  rw [hv] at hn1
  have hn : n = ⟨10, ⟨1, none, none⟩, .processing, some "Marco Dela Cruz", some 1⟩ :=
    (Option.some.inj hn1).symm
  subst hn
  exact ⟨hv, hn3⟩

/-- The effect of `save()` on a table containing the primary key, as a
row-wise map. -/
theorem saveRow_eq_map (t : List Order) (o y : Order)
    (hmem : o ∈ t) (hy : y.id = o.id) :
    saveRow t y = t.map fun x => if x.id = o.id then y else x := by
  unfold saveRow
  rw [if_pos (List.any_eq_true.mpr ⟨o, hmem, by simpa using hy.symm⟩)]
  apply List.map_congr_left
  intro x hx
  rw [hy]

/-- Closed form of the ship mutation: set the status to Shipped and save,
then retire from the queue — a single row-wise map that ships and clears
the order and closes the queue gap. -/
theorem ship_mutation_eq (t : List Order) (o : Order) (k : Nat)
    (hmem : o ∈ t) (hnodup : (t.map (·.id)).Nodup)
    (hk : o.queue_number = some k) (hkpos : 0 < k) :
    remove_from_queue { o with status := OrderStatus.shipped }
        (saveRow t { o with status := OrderStatus.shipped }) =
      t.map fun x =>
        if x.id = o.id then
          { o with status := OrderStatus.shipped, queue_number := none }
        else if x.status.isActive ∧ k < x.queue_number.getD 0 then
          { x with queue_number := x.queue_number.map (· - 1) }
        else x := by
  rw [saveRow_eq_map t o { o with status := OrderStatus.shipped } hmem rfl]
  have hmem1 : ({ o with status := OrderStatus.shipped } : Order) ∈
      t.map fun x => if x.id = o.id then
        { o with status := OrderStatus.shipped } else x := by
    refine List.mem_map.mpr ⟨o, hmem, ?_⟩
    rw [if_pos rfl]
  have hnodup1 : ((t.map fun x => if x.id = o.id then
      { o with status := OrderStatus.shipped } else x).map (·.id)).Nodup := by
    rw [List.map_map]
    have hco : ((fun x : Order => x.id) ∘ fun x =>
        if x.id = o.id then { o with status := OrderStatus.shipped } else x) =
        fun x : Order => x.id := by
      funext x
      by_cases hx : x.id = o.id <;> simp [Function.comp, hx]
    rw [hco]
    exact hnodup
  rw [remove_from_queue_eq _ _ k hmem1 hnodup1 hk hkpos]
  rw [List.map_map]
  apply List.map_congr_left
  intro x hx
  by_cases hx1 : x.id = o.id <;> simp [Function.comp, hx1]

/-- Claim C1 as stated: whenever the ship action succeeds, every line item
of the shipped order has been allocated — the total dispensed count of the
item's medicine grows by the item's quantity. -/
def C1ClaimStatement : Prop :=
  ∀ (s : SysState) (order_id : Nat),
    (delivery_post order_id .ship s).2 = .shipped →
    ∀ it ∈ s.items.filter fun it => it.order_id = order_id,
      ((((delivery_post order_id .ship s).1.batches.filter
          fun b => b.medicine_id = it.medicine_id).map
            (·.quantity_dispensed)).sum) =
        (((s.batches.filter fun b => b.medicine_id = it.medicine_id).map
          (·.quantity_dispensed)).sum) + it.quantity

/-- Claim C1 is false: shipping a driver-assigned order at the head of the
queue with a line item of quantity 3 and ample stock succeeds, yet no batch
counter moves — the ship handler never invokes any allocation
(`MedicineBatch.dispense` has no caller in the repository). -/
theorem C1_counterexample : ¬ C1ClaimStatement := by
  intro h
  have h1 := h
    (SysState.mk 0
      [⟨10, ⟨1, none, none⟩, .processing, some "Marco Dela Cruz", some 1⟩]
      [⟨10, 1, 3, none⟩]
      [⟨1, .non_prescription, .one_week, true, .active⟩]
      [⟨"BATCH-001", 1, 100, 10, 5, 5, 0, .active⟩])
    10 (by decide) ⟨10, 1, 3, none⟩ (by decide)
  exact absurd h1 (by decide)

/-- Claim C1 amended: when the ship preconditions hold (status Processing,
driver assigned, order at the head of the active queue), the ship action
sets the status to Shipped, retires the order from the queue closing the
gap, and performs no allocation — the batch table and the line items are
returned exactly unchanged, whatever the stock levels. -/
theorem C1_ship_retires_without_allocation (s : SysState) (o : Order) (k : Nat)
    (hnodup : (s.orders.map (·.id)).Nodup)
    (hmem : o ∈ s.orders) (hstat : o.status = .processing)
    (hk : o.queue_number = some k) (hkpos : 0 < k)
    (hdrv : fileTruthy o.driver = true)
    (hhead : nextInQueue s.orders = some o) :
    delivery_post o.id .ship s =
      ({ s with orders := s.orders.map fun x =>
          if x.id = o.id then
            { o with status := OrderStatus.shipped, queue_number := none }
          else if x.status.isActive ∧ k < x.queue_number.getD 0 then
            { x with queue_number := x.queue_number.map (· - 1) }
          else x }, .shipped) ∧
    (delivery_post o.id .ship s).1.batches = s.batches ∧
    (delivery_post o.id .ship s).1.items = s.items := by
  have hmain : delivery_post o.id .ship s =
      ({ s with orders := s.orders.map fun x =>
          if x.id = o.id then
            { o with status := OrderStatus.shipped, queue_number := none }
          else if x.status.isActive ∧ k < x.queue_number.getD 0 then
            { x with queue_number := x.queue_number.map (· - 1) }
          else x }, .shipped) := by
    unfold delivery_post
    simp only [find?_id_eq_of_mem s.orders o hmem hnodup]
    rw [if_pos (Or.inr trivial)]
    simp only [hhead]
    rw [if_neg (by simp)]
    show (if o.status = OrderStatus.processing then
        if fileTruthy o.driver = false then (s, DeliveryMsg.noDriver)
        else
          ({ s with orders :=
              (remove_from_queue { o with status := OrderStatus.shipped }
                (saveRow s.orders { o with status := OrderStatus.shipped })) },
            DeliveryMsg.shipped)
      else (s, DeliveryMsg.cannotApply)) = _
    rw [if_pos hstat]
    rw [if_neg (by simp [hdrv])]
    rw [ship_mutation_eq s.orders o k hmem hnodup hk hkpos]
  exact ⟨hmain, by rw [hmain], by rw [hmain]⟩

/-- Witness for the amended C1: shipping the head order of a two-order
queue marks it Shipped, shifts the other order from 2 to 1, and leaves the
batch holding 5 available / 0 dispensed untouched. -/
theorem C1_witness :
    delivery_post 10 .ship
        (SysState.mk 0
          [⟨10, ⟨1, none, none⟩, .processing, some "Marco Dela Cruz", some 1⟩,
            ⟨11, ⟨2, none, none⟩, .processing, none, some 2⟩]
          [⟨10, 1, 3, none⟩]
          [⟨1, .non_prescription, .one_week, true, .active⟩]
          [⟨"BATCH-001", 1, 100, 10, 5, 5, 0, .active⟩]) =
      ((SysState.mk 0
          [⟨10, ⟨1, none, none⟩, .shipped, some "Marco Dela Cruz", none⟩,
            ⟨11, ⟨2, none, none⟩, .processing, none, some 1⟩]
          [⟨10, 1, 3, none⟩]
          [⟨1, .non_prescription, .one_week, true, .active⟩]
          [⟨"BATCH-001", 1, 100, 10, 5, 5, 0, .active⟩]), .shipped) := by
  have h := C1_ship_retires_without_allocation
    (SysState.mk 0
      [⟨10, ⟨1, none, none⟩, .processing, some "Marco Dela Cruz", some 1⟩,
        ⟨11, ⟨2, none, none⟩, .processing, none, some 2⟩]
      [⟨10, 1, 3, none⟩]
      [⟨1, .non_prescription, .one_week, true, .active⟩]
      [⟨"BATCH-001", 1, 100, 10, 5, 5, 0, .active⟩])
    ⟨10, ⟨1, none, none⟩, .processing, some "Marco Dela Cruz", some 1⟩
    1 (by decide) (by decide) rfl rfl (by decide) (by decide) (by decide)
  rw [h.1]
  decide

/-! ## Claim C10: Pending orders hold no queue number -/

/-- The cart invariant: every Pending order holds no queue number. -/
def pendingNoQn (t : List Order) : Prop :=
  ∀ o ∈ t, o.status = OrderStatus.pending → o.queue_number = none

/-- Every row of a saved table is the saved instance or an untouched row
with a different primary key. -/
theorem mem_saveRow_cases (t : List Order) (z y : Order) (hy : y ∈ saveRow t z) :
    y = z ∨ (y ∈ t ∧ y.id ≠ z.id) := by
  unfold saveRow at hy
  split at hy
  · obtain ⟨x, hx, he⟩ := List.mem_map.mp hy
    by_cases hc : x.id = z.id
    · rw [if_pos hc] at he
      exact Or.inl he.symm
    · rw [if_neg hc] at he
      refine Or.inr ⟨he ▸ hx, ?_⟩
      rw [← he]
      exact hc
  · rename_i hany
    rcases List.mem_append.mp hy with hyt | hyz
    · refine Or.inr ⟨hyt, ?_⟩
      intro he
      exact hany (List.any_eq_true.mpr ⟨y, hyt, by simpa using he⟩)
    · exact Or.inl (List.mem_singleton.mp hyz)

/-- Saving an instance that satisfies the cart invariant preserves it. -/
theorem pendingNoQn_saveRow (t : List Order) (z : Order)
    (hne : ∀ y ∈ t, y.id ≠ z.id → y.status = OrderStatus.pending →
      y.queue_number = none)
    (hz : z.status = OrderStatus.pending → z.queue_number = none) :
    pendingNoQn (saveRow t z) := by
  intro y hy hp
  rcases mem_saveRow_cases t z y hy with rfl | ⟨hyt, hid⟩
  · exact hz hp
  · exact hne y hyt hid hp

/-- Weak form: the cart invariant is preserved by saving any instance that
itself satisfies it. -/
theorem pendingNoQn_saveRow_simple (t : List Order) (z : Order)
    (h : pendingNoQn t)
    (hz : z.status = OrderStatus.pending → z.queue_number = none) :
    pendingNoQn (saveRow t z) :=
  pendingNoQn_saveRow t z (fun y hy _ => h y hy) hz

/-- Every row of the table after `assign_queue_number` is the saved self
instance (with some queue number) or a possibly-shifted original row. -/
theorem assign_queue_number_mem (selfO : Order) (t : List Order) (y : Order)
    (hy : y ∈ (assign_queue_number selfO t).1) :
    (∃ p, y = { selfO with queue_number := some p }) ∨
      ∃ x ∈ t, y = x ∨ y = bumpOrder x := by
  have hmap : ∀ (c : Order → Bool) (y : Order),
      y ∈ (t.map fun o => if c o then bumpOrder o else o) →
        ∃ x ∈ t, y = x ∨ y = bumpOrder x := by
    intro c y hy
    obtain ⟨x, hx, he⟩ := List.mem_map.mp hy
    refine ⟨x, hx, ?_⟩
    by_cases hc : c x = true
    · rw [if_pos hc] at he
      exact Or.inr he.symm
    · rw [if_neg hc] at he
      exact Or.inl he.symm
  simp only [assign_queue_number, shiftGe, shiftAllPending] at hy
  repeat' split at hy
  all_goals
    rcases mem_saveRow_cases _ _ _ hy with rfl | ⟨hyt, _⟩
  all_goals
    first
      | exact Or.inl ⟨_, rfl⟩
      | exact Or.inr (hmap _ _ hyt)
      | exact Or.inr ⟨_, hyt, Or.inl rfl⟩

/-- The instance `assign_queue_number` saves is `self` with some queue
number. -/
theorem assign_queue_number_snd (selfO : Order) (t : List Order) :
    ∃ p, (assign_queue_number selfO t).2 =
      { selfO with queue_number := some p } := by
  simp only [assign_queue_number]
  repeat' split
  all_goals exact ⟨_, rfl⟩

/-- Rows other than the inserted order keep the cart invariant through
`assign_queue_number`. -/
theorem pendingNoQn_assign_frame (selfO : Order) (t : List Order)
    (h : pendingNoQn t) :
    ∀ y ∈ (assign_queue_number selfO t).1, y.id ≠ selfO.id →
      y.status = OrderStatus.pending → y.queue_number = none := by
  intro y hy hid hp
  rcases assign_queue_number_mem selfO t y hy with ⟨p, hyp⟩ | ⟨x, hx, hyx | hyb⟩
  · rw [hyp] at hid
    exact absurd rfl hid
  · rw [hyx] at hp ⊢
    exact h x hx hp
  · rw [hyb] at hp ⊢
    have hp' : x.status = OrderStatus.pending := hp
    have hx0 := h x hx hp'
    show (x.queue_number.map (· + 1)) = none
    rw [hx0]
    rfl

/-- Inserting an order that is not Pending preserves the cart invariant. -/
theorem pendingNoQn_assign (selfO : Order) (t : List Order)
    (h : pendingNoQn t) (hself : selfO.status ≠ OrderStatus.pending) :
    pendingNoQn (assign_queue_number selfO t).1 := by
  intro y hy hp
  rcases assign_queue_number_mem selfO t y hy with ⟨p, hyp⟩ | ⟨x, hx, hyx | hyb⟩
  · rw [hyp] at hp
    exact absurd hp hself
  · rw [hyx] at hp ⊢
    exact h x hx hp
  · rw [hyb] at hp ⊢
    have hp' : x.status = OrderStatus.pending := hp
    have hx0 := h x hx hp'
    show (x.queue_number.map (· + 1)) = none
    rw [hx0]
    rfl

/-- Retiring any order preserves the cart invariant. -/
theorem pendingNoQn_remove (z : Order) (t : List Order)
    (h : pendingNoQn t) : pendingNoQn (remove_from_queue z t) := by
  unfold remove_from_queue
  split
  · intro y hy hp
    rcases mem_saveRow_cases _ _ _ hy with rfl | ⟨hyt, _⟩
    · rfl
    · obtain ⟨x, hx, rfl⟩ := List.mem_map.mp hyt
      by_cases hc : (x.status.isActive &&
          z.queue_number.getD 0 < x.queue_number.getD 0) = true
      · rw [if_pos hc] at hp ⊢
        have hx0 := h x hx hp
        show (x.queue_number.map (· - 1)) = none
        rw [hx0]
        rfl
      · rw [if_neg hc] at hp ⊢
        exact h x hx hp
  · exact h

/-- The orders table after `add_to_order` is unchanged or extended with a
fresh Pending cart holding no queue number. -/
theorem add_to_order_orders (u : User) (mid q : Nat) (sr : Option String)
    (s : SysState) :
    (add_to_order u mid q sr s).1.orders = s.orders ∨
      (add_to_order u mid q sr s).1.orders =
        s.orders ++ [⟨s.nextId, u, .pending, none, none⟩] := by
  unfold add_to_order
  repeat' split
  all_goals first | exact Or.inl rfl | exact Or.inr rfl

/-- The orders table after `order_checkout` is unchanged or the result of
assigning a queue number to some order and saving it as Processing. -/
theorem order_checkout_orders (u : User) (s : SysState) :
    (order_checkout u s).1.orders = s.orders ∨
      ∃ order : Order,
        (order_checkout u s).1.orders =
          saveRow (assign_queue_number order s.orders).1
            { (assign_queue_number order s.orders).2 with
                status := OrderStatus.processing } := by
  unfold order_checkout
  repeat' split
  all_goals first | exact Or.inl rfl | exact Or.inr ⟨_, rfl⟩

/-- The orders table after a `delivery_page` action is unchanged, or one of
the six mutations applied to an order found in the table. -/
theorem delivery_post_orders (oid : Nat) (act : DeliveryAction) (s : SysState) :
    (delivery_post oid act s).1.orders = s.orders ∨
      ∃ order : Order, order ∈ s.orders ∧
        ((∃ d, (delivery_post oid act s).1.orders =
            saveRow s.orders { order with driver := d }) ∨
          (delivery_post oid act s).1.orders =
            saveRow s.orders { order with status := OrderStatus.processing } ∨
          (delivery_post oid act s).1.orders =
            remove_from_queue { order with status := OrderStatus.shipped }
              (saveRow s.orders { order with status := OrderStatus.shipped }) ∨
          (delivery_post oid act s).1.orders =
            saveRow s.orders { order with status := OrderStatus.completed } ∨
          (delivery_post oid act s).1.orders =
            remove_from_queue { order with status := OrderStatus.cancelled }
              (saveRow s.orders { order with status := OrderStatus.cancelled }) ∨
          (delivery_post oid act s).1.orders =
            (assign_queue_number { order with status := OrderStatus.processing }
              s.orders).1) := by
  unfold delivery_post deliveryDispatch
  repeat' split
  all_goals
    first
      | exact Or.inl rfl
      | (refine Or.inr ⟨_, List.mem_of_find?_eq_some (by assumption), ?_⟩
         first
           | exact Or.inl ⟨_, rfl⟩
           | exact Or.inr (Or.inl rfl)
           | exact Or.inr (Or.inr (Or.inl rfl))
           | exact Or.inr (Or.inr (Or.inr (Or.inl rfl)))
           | exact Or.inr (Or.inr (Or.inr (Or.inr (Or.inl rfl))))
           | exact Or.inr (Or.inr (Or.inr (Or.inr (Or.inr rfl)))))

/-- Each public operation preserves the cart invariant. -/
theorem applyView_pendingNoQn (s : SysState) (op : ViewOp)
    (h : pendingNoQn s.orders) : pendingNoQn (applyView s op).orders := by
  cases op with
  | add u mid q sr =>
    show pendingNoQn (add_to_order u mid q sr s).1.orders
    rcases add_to_order_orders u mid q sr s with he | he
    · rw [he]; exact h
    · rw [he]
      intro o ho hp
      rcases List.mem_append.mp ho with ho | ho
      · exact h o ho hp
      · rw [List.mem_singleton.mp ho]
  | checkout u =>
    show pendingNoQn (order_checkout u s).1.orders
    rcases order_checkout_orders u s with he | ⟨order, he⟩
    · rw [he]; exact h
    · rw [he]
      obtain ⟨p, hsnd⟩ := assign_queue_number_snd order s.orders
      apply pendingNoQn_saveRow
      · intro y hy hid
        rw [hsnd] at hid
        exact pendingNoQn_assign_frame order s.orders h y hy hid
      · intro hp
        exact absurd hp (by rw [hsnd]; intro hp2; cases hp2)
  | delivery oid act =>
    show pendingNoQn (delivery_post oid act s).1.orders
    rcases delivery_post_orders oid act s with he | ⟨order, hordmem, hcase⟩
    · rw [he]; exact h
    · have hPord := h order hordmem
      rcases hcase with ⟨d, he⟩ | he | he | he | he | he
      · rw [he]
        exact pendingNoQn_saveRow_simple _ _ h fun hp => hPord hp
      · rw [he]
        exact pendingNoQn_saveRow_simple _ _ h fun hp => OrderStatus.noConfusion hp
      · rw [he]
        exact pendingNoQn_remove _ _
          (pendingNoQn_saveRow_simple _ _ h fun hp => OrderStatus.noConfusion hp)
      · rw [he]
        exact pendingNoQn_saveRow_simple _ _ h fun hp => OrderStatus.noConfusion hp
      · rw [he]
        exact pendingNoQn_remove _ _
          (pendingNoQn_saveRow_simple _ _ h fun hp => OrderStatus.noConfusion hp)
      · rw [he]
        exact pendingNoQn_assign _ _ h fun hp => OrderStatus.noConfusion hp

/-- The cart invariant holds along every run of public operations. -/
theorem runView_foldl_pendingNoQn (ops : List ViewOp) :
    ∀ s : SysState, pendingNoQn s.orders →
      pendingNoQn (ops.foldl applyView s).orders := by
  induction ops with
  | nil => exact fun s h => h
  | cons op rest ih =>
    intro s h
    rw [List.foldl_cons]
    exact ih _ (applyView_pendingNoQn s op h)

/-- Claim C10: after every sequence of public operations from an empty
order table, every order with status Pending holds no queue number — the
cart is created without one and queue numbers are assigned only by checkout
and reopen, which set the status to Processing in the same operation. -/
theorem C10_pending_orders_hold_no_queue_number (medicines : List Medicine)
    (batches : List Batch) (ops : List ViewOp) :
    ∀ o ∈ (runView medicines batches ops).orders,
      o.status = OrderStatus.pending → o.queue_number = none := by
  unfold runView
  exact runView_foldl_pendingNoQn ops ⟨0, [], [], medicines, batches⟩
    (fun o ho _ => absurd ho (by simp))

/-- Witness for C10: after an add-to-cart the created Pending order is in
the table and holds no queue number. -/
theorem C10_witness :
    ((⟨0, ⟨1, none, none⟩, .pending, none, none⟩ : Order) ∈
        (runView [⟨1, .non_prescription, .one_week, true, .active⟩]
          [⟨"BATCH-001", 1, 100, 10, 5, 5, 0, .active⟩]
          [.add ⟨1, none, none⟩ 1 2 none]).orders ∧
      (⟨0, ⟨1, none, none⟩, .pending, none, none⟩ : Order).status =
        OrderStatus.pending) ∧
    (⟨0, ⟨1, none, none⟩, .pending, none, none⟩ : Order).queue_number = none := by
  refine ⟨⟨by decide, rfl⟩, ?_⟩
  exact C10_pending_orders_hold_no_queue_number
    [⟨1, .non_prescription, .one_week, true, .active⟩]
    [⟨"BATCH-001", 1, 100, 10, 5, 5, 0, .active⟩]
    [.add ⟨1, none, none⟩ 1 2 none]
    ⟨0, ⟨1, none, none⟩, .pending, none, none⟩ (by decide) rfl

/-! ## Claims C2 and C3: the queue invariants

The queue registry is exercised through the call patterns of the views:
insert (checkout and reopen) creates an active order and runs
`assign_queue_number`, leaving it Processing; retire (ship and cancel)
saves a terminal status and runs `remove_from_queue`. -/

/-- One queue-registry operation. -/
inductive QOp where
  | insert (u : User)
  | retire (id : Nat)
  deriving Repr, DecidableEq

/-- The order table together with the next fresh primary key (database
autoincrement). -/
structure QState where
  nextId : Nat
  orders : List Order
  deriving Repr, DecidableEq

/-- Apply one queue operation. -/
def applyQOp (s : QState) : QOp → QState
  | .insert u =>
    let cart : Order := ⟨s.nextId, u, .pending, none, none⟩
    let r := assign_queue_number cart (s.orders ++ [cart])
    ⟨s.nextId + 1, saveRow r.1 { r.2 with status := .processing }⟩
  | .retire i =>
    match s.orders.find? fun o => o.id = i with
    | none => s
    | some o =>
      ⟨s.nextId, remove_from_queue { o with status := .shipped }
        (saveRow s.orders { o with status := .shipped })⟩

/-- Run a sequence of queue operations from the empty queue. -/
def runQOps (ops : List QOp) : QState := ops.foldl applyQOp ⟨0, []⟩

/-- The active orders (status Pending or Processing). -/
def activeRows (t : List Order) : List Order :=
  t.filter fun o => o.status.isActive

/-- The queue numbers held by active orders. -/
def activeQNs (t : List Order) : List Nat :=
  (activeRows t).filterMap (·.queue_number)

theorem activeRows_append (l₁ l₂ : List Order) :
    activeRows (l₁ ++ l₂) = activeRows l₁ ++ activeRows l₂ :=
  List.filter_append ..

theorem activeQNs_append (l₁ l₂ : List Order) :
    activeQNs (l₁ ++ l₂) = activeQNs l₁ ++ activeQNs l₂ := by
  unfold activeQNs
  rw [activeRows_append, List.filterMap_append]

/-- Bounding a fold of `max`. -/
theorem foldr_max_le (l : List Nat) (N : Nat) (h : ∀ x ∈ l, x ≤ N) :
    l.foldr max 0 ≤ N := by
  induction l with
  | nil => exact Nat.zero_le N
  | cons a rest ih =>
    have := h a (List.mem_cons_self a rest)
    have := ih fun x hx => h x (List.mem_cons_of_mem a hx)
    simp only [List.foldr]
    omega

/-- A member bounds the fold of `max` from below. -/
theorem le_foldr_max (l : List Nat) (x : Nat) (h : x ∈ l) :
    x ≤ l.foldr max 0 := by
  induction l with
  | nil => cases h
  | cons a rest ih =>
    rcases List.mem_cons.mp h with rfl | hx
    · simp only [List.foldr]
      omega
    · have := ih hx
      simp only [List.foldr]
      omega

/-- The fold of `max` over a nonempty list is a member. -/
theorem foldr_max_mem (l : List Nat) (h : l ≠ []) : l.foldr max 0 ∈ l := by
  induction l with
  | nil => exact absurd rfl h
  | cons a rest ih =>
    cases rest with
    | nil => simp
    | cons b bs =>
      have hmem := ih (List.cons_ne_nil b bs)
      show max a ((b :: bs).foldr max 0) ∈ a :: b :: bs
      rcases Nat.le_total a ((b :: bs).foldr max 0) with hle | hle
      · rw [Nat.max_eq_right hle]
        exact List.mem_cons_of_mem a hmem
      · rw [Nat.max_eq_left hle]
        exact List.mem_cons_self a _

theorem maxQn_le (l : List Order) (N : Nat)
    (h : ∀ o ∈ l, ∀ j, o.queue_number = some j → j ≤ N) : maxQn l ≤ N := by
  apply foldr_max_le
  intro x hx
  obtain ⟨o, ho, he⟩ := List.mem_filterMap.mp hx
  exact h o ho x he

theorem le_maxQn (l : List Order) (o : Order) (j : Nat)
    (ho : o ∈ l) (hj : o.queue_number = some j) : j ≤ maxQn l :=
  le_foldr_max _ _ (List.mem_filterMap.mpr ⟨o, ho, hj⟩)

theorem maxQn_mem (l : List Order) (o₀ : Order) (j₀ : Nat)
    (h0 : o₀ ∈ l) (hj₀ : o₀.queue_number = some j₀) :
    ∃ o ∈ l, o.queue_number = some (maxQn l) := by
  have hne : l.filterMap (·.queue_number) ≠ [] := by
    intro he
    have : j₀ ∈ l.filterMap (·.queue_number) :=
      List.mem_filterMap.mpr ⟨o₀, h0, hj₀⟩
    rw [he] at this
    cases this
  obtain ⟨o, ho, he⟩ := List.mem_filterMap.mp (foldr_max_mem _ hne)
  exact ⟨o, ho, he⟩

/-- A singleton appended behind permutes to the front. -/
theorem perm_append_single (a : Nat) (l : List Nat) :
    (l ++ [a]).Perm (a :: l) := by
  have h := @List.perm_middle _ a l []
  rwa [List.append_nil] at h

/-- Appending the new maximum extends a gapless range. -/
theorem perm_append_succ_max (l : List Nat) (N : Nat)
    (hperm : l.Perm (List.range' 1 N)) :
    (l ++ [N + 1]).Perm (List.range' 1 (N + 1)) := by
  have h1 : List.range' 1 (N + 1) = List.range' 1 N ++ [N + 1] := by
    have happ := List.range'_append 1 N 1 1
    rw [show 1 + 1 * N = N + 1 from by omega, show 1 + N = N + 1 from by omega,
      List.range'_one] at happ
    exact happ.symm
  rw [h1]
  exact hperm.append (List.Perm.refl _)

/-- Inserting at position `pos` while bumping everything at or after it
extends a gapless range. -/
theorem perm_insert_bump (l : List Nat) (N pos : Nat)
    (hperm : l.Perm (List.range' 1 N)) (h1 : 1 ≤ pos) (h2 : pos ≤ N + 1) :
    ((l.map fun n => if pos ≤ n then n + 1 else n) ++ [pos]).Perm
      (List.range' 1 (N + 1)) := by
  have hsplit : List.range' 1 N =
      List.range' 1 (pos - 1) ++ List.range' pos (N + 1 - pos) := by
    have happ := List.range'_append 1 (pos - 1) (N + 1 - pos) 1
    rw [show 1 + 1 * (pos - 1) = pos from by omega,
      show N + 1 - pos + (pos - 1) = N from by omega] at happ
    exact happ.symm
  have hmapsplit : (List.range' 1 N).map (fun n => if pos ≤ n then n + 1 else n) =
      List.range' 1 (pos - 1) ++ List.range' (pos + 1) (N + 1 - pos) := by
    rw [hsplit, List.map_append]
    congr 1
    · apply (List.map_congr_left fun x hx => ?_).trans (List.map_id _)
      have := (List.mem_range'_1.mp hx).2
      rw [if_neg (by omega)]
      rfl
    · have hplus := List.map_add_range' 1 pos (N + 1 - pos) 1
      rw [show (1 : Nat) + pos = pos + 1 from by omega] at hplus
      rw [← hplus]
      apply List.map_congr_left
      intro x hx
      have := (List.mem_range'_1.mp hx).1
      rw [if_pos (by omega)]
      omega
  refine (perm_append_single pos _).trans ?_
  refine (List.Perm.cons pos ((hperm.map _).trans
    (by rw [hmapsplit]))).trans ?_
  refine (List.Perm.symm (@List.perm_middle _ pos (List.range' 1 (pos - 1))
    (List.range' (pos + 1) (N + 1 - pos)))).trans ?_
  have hc : pos :: List.range' (pos + 1) (N + 1 - pos) =
      List.range' pos (N + 2 - pos) := by
    have := List.range'_succ pos (N + 1 - pos) 1
    rw [show N + 1 - pos + 1 = N + 2 - pos from by omega] at this
    exact this.symm
  have happ := List.range'_append 1 (pos - 1) (N + 2 - pos) 1
  rw [show 1 + 1 * (pos - 1) = pos from by omega,
    show N + 2 - pos + (pos - 1) = N + 1 from by omega] at happ
  rw [hc, happ]

/-- Bumping every member of a gapless range and inserting 1 extends it. -/
theorem perm_insert_one (l : List Nat) (N : Nat)
    (hperm : l.Perm (List.range' 1 N)) :
    (l.map (· + 1) ++ [1]).Perm (List.range' 1 (N + 1)) := by
  have h2 : (List.range' 1 N).map (· + 1) = List.range' 2 N := by
    have := List.map_add_range' 1 1 N 1
    rw [← this]
    apply List.map_congr_left
    intro x _
    omega
  refine (perm_append_single 1 _).trans ?_
  refine (List.Perm.cons 1 ((hperm.map _).trans
    (by rw [h2]))).trans ?_
  rw [List.range'_succ]

/-- Removing `k` from a gapless range and decrementing everything above it
closes the gap. -/
theorem perm_retire (l : List Nat) (N k : Nat)
    (hperm : (k :: l).Perm (List.range' 1 N)) :
    (l.map fun n => if k < n then n - 1 else n).Perm
      (List.range' 1 (N - 1)) := by
  have hk : k ∈ List.range' 1 N := hperm.subset (List.mem_cons_self k l)
  have hk1 : 1 ≤ k := (List.mem_range'_1.mp hk).1
  have hkN : k < 1 + N := (List.mem_range'_1.mp hk).2
  have hl : l.Perm ((List.range' 1 N).erase k) :=
    (List.cons_perm_iff_perm_erase.mp hperm).2
  have hsplit : List.range' 1 N =
      List.range' 1 (k - 1) ++ k :: List.range' (k + 1) (N - k) := by
    have hc : k :: List.range' (k + 1) (N - k) = List.range' k (N + 1 - k) := by
      have := List.range'_succ k (N - k) 1
      rw [show N - k + 1 = N + 1 - k from by omega] at this
      exact this.symm
    have happ := List.range'_append 1 (k - 1) (N + 1 - k) 1
    rw [show 1 + 1 * (k - 1) = k from by omega,
      show N + 1 - k + (k - 1) = N from by omega] at happ
    rw [hc, happ]
  have herase : (List.range' 1 N).erase k =
      List.range' 1 (k - 1) ++ List.range' (k + 1) (N - k) := by
    rw [hsplit]
    rw [List.erase_append_right _ (by
      intro hmem
      have := (List.mem_range'_1.mp hmem).2
      omega)]
    rw [List.erase_cons_head]
  have hmap : ((List.range' 1 N).erase k).map
      (fun n => if k < n then n - 1 else n) = List.range' 1 (N - 1) := by
    rw [herase, List.map_append]
    have hA : (List.range' 1 (k - 1)).map (fun n => if k < n then n - 1 else n) =
        List.range' 1 (k - 1) := by
      apply (List.map_congr_left fun x hx => ?_).trans (List.map_id _)
      have := (List.mem_range'_1.mp hx).2
      rw [if_neg (by omega)]
      rfl
    have hB : (List.range' (k + 1) (N - k)).map
        (fun n => if k < n then n - 1 else n) = List.range' k (N - k) := by
      have hplus := List.map_add_range' 1 k (N - k) 1
      rw [show (1 : Nat) + k = k + 1 from by omega] at hplus
      rw [← hplus, List.map_map]
      apply (List.map_congr_left fun x hx => ?_).trans (List.map_id _)
      have hkx := (List.mem_range'_1.mp hx).1
      show (if k < 1 + x then 1 + x - 1 else 1 + x) = id x
      rw [if_pos (by omega)]
      simp only [id_eq]
      omega
    rw [hA, hB]
    have happ := List.range'_append 1 (k - 1) (N - k) 1
    rw [show 1 + 1 * (k - 1) = k from by omega,
      show N - k + (k - 1) = N - 1 from by omega] at happ
    exact happ
  exact (hl.map _).trans (by rw [hmap])

/-- A user's document fields are NULL-consistent: neither holds the empty
string (no empty-string upload ever occurred). -/
def User.docsConsistent (u : User) : Prop :=
  u.senior_citizen_id ≠ some "" ∧ u.pwd_id ≠ some ""

instance : DecidablePred User.docsConsistent := fun u =>
  decidable_of_iff (u.senior_citizen_id ≠ some "" ∧ u.pwd_id ≠ some "") Iff.rfl

theorem selfPriority_eq_spec (u : User) : u.selfPriority = u.specPriority := by
  unfold User.selfPriority User.specPriority fileTruthy
  cases u.senior_citizen_id <;> cases u.pwd_id <;> rfl

theorem isNullPriority_not_regular (u : User) :
    u.isNullPriority = !u.isNullRegular := by
  unfold User.isNullPriority User.isNullRegular
  cases u.senior_citizen_id <;> cases u.pwd_id <;> rfl

theorem isNullPriority_eq_spec_of_docs (u : User) (h : u.docsConsistent) :
    u.isNullPriority = u.specPriority := by
  obtain ⟨h1, h2⟩ := h
  unfold User.isNullPriority User.specPriority
  cases hs : u.senior_citizen_id <;> cases hp : u.pwd_id <;> simp_all

/-- The queue invariant on a table with id-allocator bound `nid`: distinct
primary keys below the allocator, active rows hold queue numbers, inactive
rows hold none, and the active queue numbers are a permutation of `1..N`
where `N` counts the active rows. -/
def tableInv (nid : Nat) (t : List Order) : Prop :=
  (t.map (·.id)).Nodup ∧
  (∀ o ∈ t, o.id < nid) ∧
  (∀ o ∈ t, o.status.isActive = true → o.queue_number.isSome = true) ∧
  (∀ o ∈ t, o.status.isActive = false → o.queue_number = none) ∧
  (activeQNs t).Perm (List.range' 1 (activeRows t).length)

/-- The queue invariant on a state. -/
def QInv (s : QState) : Prop := tableInv s.nextId s.orders

theorem activeRows_cons_pos (o : Order) (t : List Order)
    (h : o.status.isActive = true) :
    activeRows (o :: t) = o :: activeRows t := by
  simp [activeRows, List.filter_cons, h]

theorem activeRows_cons_neg (o : Order) (t : List Order)
    (h : o.status.isActive = false) :
    activeRows (o :: t) = activeRows t := by
  simp [activeRows, List.filter_cons, h]

theorem activeQNs_cons_active (o : Order) (t : List Order) (k : Nat)
    (ha : o.status.isActive = true) (hk : o.queue_number = some k) :
    activeQNs (o :: t) = k :: activeQNs t := by
  unfold activeQNs
  rw [activeRows_cons_pos o t ha]
  simp [List.filterMap_cons, hk]

theorem activeQNs_cons_inactive (o : Order) (t : List Order)
    (ha : o.status.isActive = false) :
    activeQNs (o :: t) = activeQNs t := by
  unfold activeQNs
  rw [activeRows_cons_neg o t ha]

/-- `activeRows` commutes with a status-preserving row map. -/
theorem activeRows_map (f : Order → Order) (t : List Order)
    (hf : ∀ o, (f o).status = o.status) :
    activeRows (t.map f) = (activeRows t).map f := by
  unfold activeRows
  rw [List.filter_map]
  congr 1
  apply List.filter_congr
  intro o _
  show (f o).status.isActive = o.status.isActive
  rw [hf o]

/-- `filterMap` of the queue numbers through a row map that acts as `g` on
every (present) queue number. -/
theorem filterMap_qn_map (l : List Order) (f : Order → Order) (g : Nat → Nat)
    (hsome : ∀ o ∈ l, o.queue_number.isSome = true)
    (h : ∀ o ∈ l, ∀ j, o.queue_number = some j →
      (f o).queue_number = some (g j)) :
    (l.map f).filterMap (·.queue_number) =
      (l.filterMap (·.queue_number)).map g := by
  induction l with
  | nil => rfl
  | cons o rest ih =>
    obtain ⟨j, hj⟩ :=
      Option.isSome_iff_exists.mp (hsome o (List.mem_cons_self o rest))
    rw [List.map_cons]
    simp only [List.filterMap_cons, hj, h o (List.mem_cons_self o rest) j hj,
      List.map_cons]
    rw [ih (fun x hx => hsome x (List.mem_cons_of_mem o hx))
      (fun x hx j' hj' => h x (List.mem_cons_of_mem o hx) j' hj')]

/-- Under the gapless invariant every active queue number lies in `1..N`. -/
theorem qn_le_len (t : List Order)
    (hperm : (activeQNs t).Perm (List.range' 1 (activeRows t).length)) :
    ∀ o ∈ activeRows t, ∀ j, o.queue_number = some j →
      1 ≤ j ∧ j ≤ (activeRows t).length := by
  intro o ho j hj
  have h1 : j ∈ activeQNs t := List.mem_filterMap.mpr ⟨o, ho, hj⟩
  have h2 := List.mem_range'_1.mp (hperm.subset h1)
  omega

/-- Under the gapless invariant, the maximum queue number of a nonempty
active queue equals the number of active orders. -/
theorem maxQn_activeRows_eq_len (t : List Order)
    (hact : ∀ o ∈ t, o.status.isActive = true → o.queue_number.isSome = true)
    (hperm : (activeQNs t).Perm (List.range' 1 (activeRows t).length))
    (hne : activeRows t ≠ []) :
    maxQn (activeRows t) = (activeRows t).length := by
  have hub : maxQn (activeRows t) ≤ (activeRows t).length :=
    maxQn_le _ _ (fun o ho j hj => (qn_le_len t hperm o ho j hj).2)
  obtain ⟨o₀, ho₀⟩ := List.exists_mem_of_ne_nil _ hne
  have ho₀' : o₀ ∈ t.filter (fun o => o.status.isActive) := ho₀
  obtain ⟨hmem₀, hactive₀⟩ := List.mem_filter.mp ho₀'
  have hs := hact o₀ hmem₀ hactive₀
  obtain ⟨j₀, hj₀⟩ := Option.isSome_iff_exists.mp hs
  have hb₀ := qn_le_len t hperm o₀ ho₀ j₀ hj₀
  have hN1 : 1 ≤ (activeRows t).length := by omega
  have hNmem : (activeRows t).length ∈ activeQNs t :=
    hperm.symm.subset (List.mem_range'_1.mpr ⟨hN1, by omega⟩)
  obtain ⟨o₁, ho₁, hq₁⟩ := List.mem_filterMap.mp hNmem
  have hlb := le_maxQn (activeRows t) o₁ _ ho₁ hq₁
  omega

/-- Saving a row whose key is fresh for `l` but matches the appended row
replaces only the appended row. -/
theorem saveRow_append_last (l : List Order) (x z : Order)
    (hfresh : ∀ y ∈ l, y.id ≠ x.id) (hz : z.id = x.id) :
    saveRow (l ++ [x]) z = l ++ [z] := by
  unfold saveRow
  rw [if_pos (List.any_eq_true.mpr ⟨x,
    List.mem_append_right l (List.mem_cons_self x []), by simpa using hz.symm⟩)]
  rw [List.map_append]
  congr 1
  · apply (List.map_congr_left fun y hy => ?_).trans (List.map_id l)
    rw [if_neg fun he => hfresh y hy (he.trans hz)]
    rfl
  · show List.map _ [x] = [z]
    simp only [List.map_cons, List.map_nil]
    rw [if_pos hz.symm]

/-- Ids equal under a table map implies freshness transfers. -/
theorem ids_ne_of_map_eq (l t : List Order) (nid : Nat)
    (hids : l.map (·.id) = t.map (·.id)) (hfr : ∀ o ∈ t, o.id ≠ nid) :
    ∀ y ∈ l, y.id ≠ nid := by
  intro y hy
  have hmem : y.id ∈ t.map (·.id) := hids ▸ List.mem_map_of_mem _ hy
  obtain ⟨x, hx, he⟩ := List.mem_map.mp hmem
  exact he ▸ hfr x hx

/-- The `pending_orders` queryset seen by a freshly inserted cart with no
queue number is exactly the active rows of the prior table. -/
theorem pendingOrders_append_cart (t : List Order) (cart : Order)
    (hfresh : ∀ o ∈ t, o.id ≠ cart.id)
    (hact : ∀ o ∈ t, o.status.isActive = true → o.queue_number.isSome = true)
    (hcart : cart.queue_number = none) :
    pendingOrders cart.id (t ++ [cart]) = activeRows t := by
  unfold pendingOrders activeRows
  rw [List.filter_append]
  have h2 : [cart].filter (isPendingRow cart.id) = [] := by
    simp [isPendingRow, hcart]
  rw [h2, List.append_nil]
  apply List.filter_congr
  intro o ho
  by_cases ha : o.status.isActive = true
  · simp [isPendingRow, ha, hact o ho ha, hfresh o ho]
  · simp only [Bool.not_eq_true] at ha
    simp [isPendingRow, ha]

theorem mem_activeRows (t : List Order) (o : Order) (h : o ∈ activeRows t) :
    o ∈ t ∧ o.status.isActive = true := by
  have h' : o ∈ t.filter (fun o => o.status.isActive) := h
  exact List.mem_filter.mp h'

theorem activeRows_mem (t : List Order) (o : Order) (h1 : o ∈ t)
    (h2 : o.status.isActive = true) : o ∈ activeRows t :=
  List.mem_filter.mpr ⟨h1, h2⟩

theorem ne_nil_of_isEmpty_false {α : Type} (l : List α)
    (h : l.isEmpty = false) : l ≠ [] := by
  intro he
  rw [he] at h
  cases h

theorem eq_nil_of_not_isEmpty_false {α : Type} (l : List α)
    (h : ¬ l.isEmpty = false) : l = [] := by
  cases hl : l.isEmpty
  · exact absurd hl h
  · exact List.isEmpty_iff.mp hl

/-- Queue-number shift applied by an insert at position `pos`. -/
def bumpAt (pos j : Nat) : Nat := if pos ≤ j then j + 1 else j

/-- The insert position chosen by `assign_queue_number`, by branch, in terms
of the active rows of the prior table. -/
def posSpec (t : List Order) (u : User) (pos : Nat) : Prop :=
  let regL := (activeRows t).filter fun o => o.user.isNullRegular
  let priL := (activeRows t).filter fun o => o.user.isNullPriority
  (u.selfPriority = true ∧ regL ≠ [] ∧ priL ≠ [] ∧ pos = maxQn priL + 1) ∨
  (u.selfPriority = true ∧ regL ≠ [] ∧ priL = [] ∧ pos = 1) ∨
  (u.selfPriority = true ∧ regL = [] ∧ priL ≠ [] ∧ pos = maxQn priL + 1) ∨
  (u.selfPriority = true ∧ regL = [] ∧ priL = [] ∧ pos = 1) ∨
  (u.selfPriority = false ∧ activeRows t ≠ [] ∧
    pos = maxQn (activeRows t) + 1) ∨
  (u.selfPriority = false ∧ activeRows t = [] ∧ pos = 1)

/-- Correspondence between the prior table and the shifted table of an
insert: a row map preserving id, user and status, acting as `bumpAt pos` on
active queue numbers and fixing inactive rows' queue numbers. -/
def rowCorr (t t' : List Order) (pos : Nat) : Prop :=
  ∃ σ : Order → Order, t' = t.map σ ∧
    (∀ x, (σ x).id = x.id ∧ (σ x).user = x.user ∧ (σ x).status = x.status) ∧
    (∀ x ∈ t, x.status.isActive = true → ∀ j, x.queue_number = some j →
      (σ x).queue_number = some (bumpAt pos j)) ∧
    (∀ x ∈ t, x.status.isActive = false →
      (σ x).queue_number = x.queue_number)

theorem rowCorr_ids (t t' : List Order) (pos : Nat) (hc : rowCorr t t' pos) :
    t'.map (·.id) = t.map (·.id) := by
  obtain ⟨σ, heq, hpres, _, _⟩ := hc
  rw [heq, List.map_map]
  apply List.map_congr_left
  intro x _
  exact (hpres x).1

/-- The identity correspondence, valid when every active queue number lies
strictly below the insert position. -/
theorem rowCorr_id (t : List Order) (pos : Nat)
    (hlt : ∀ x ∈ t, x.status.isActive = true → ∀ j, x.queue_number = some j →
      j < pos) :
    rowCorr t t pos := by
  refine ⟨id, (List.map_id t).symm, fun x => ⟨rfl, rfl, rfl⟩, ?_,
    fun x _ _ => rfl⟩
  intro x hx hxact j hj
  show x.queue_number = some (bumpAt pos j)
  unfold bumpAt
  rw [if_neg (by have := hlt x hx hxact j hj; omega)]
  exact hj

/-- `shiftGe` realises the `bumpAt pos` correspondence. -/
theorem rowCorr_shiftGe (t : List Order) (selfId pos : Nat)
    (hfresh : ∀ o ∈ t, o.id ≠ selfId) :
    rowCorr t (shiftGe selfId pos t) pos := by
  refine ⟨fun o => if isPendingRow selfId o && pos ≤ o.queue_number.getD 0
    then bumpOrder o else o, rfl, ?_, ?_, ?_⟩
  · intro x
    dsimp only
    by_cases hc : (isPendingRow selfId x && pos ≤ x.queue_number.getD 0) = true
    · rw [if_pos hc]
      exact ⟨rfl, rfl, rfl⟩
    · rw [if_neg hc]
      exact ⟨rfl, rfl, rfl⟩
  · intro x hx hxact j hj
    have hpend' : isPendingRow selfId x = true := by
      simp [isPendingRow, hxact, hj, hfresh x hx]
    show (if isPendingRow selfId x && pos ≤ x.queue_number.getD 0
      then bumpOrder x else x).queue_number = some (bumpAt pos j)
    rw [hpend', hj]
    simp only [Option.getD_some, Bool.true_and]
    unfold bumpAt
    by_cases hle : pos ≤ j
    · rw [if_pos (by simpa using hle), if_pos hle]
      simp [bumpOrder, hj]
    · rw [if_neg (by simpa using hle), if_neg hle]
      exact hj
  · intro x hx hxin
    show (if isPendingRow selfId x && pos ≤ x.queue_number.getD 0
      then bumpOrder x else x).queue_number = x.queue_number
    rw [if_neg (by simp [isPendingRow, hxin])]

/-- `shiftAllPending` realises the `bumpAt 1` correspondence (every active
queue number is at least 1 under the invariant). -/
theorem rowCorr_shiftAll (t : List Order) (selfId : Nat)
    (hfresh : ∀ o ∈ t, o.id ≠ selfId)
    (hge1 : ∀ x ∈ t, x.status.isActive = true → ∀ j, x.queue_number = some j →
      1 ≤ j) :
    rowCorr t (shiftAllPending selfId t) 1 := by
  refine ⟨fun o => if isPendingRow selfId o then bumpOrder o else o, rfl,
    ?_, ?_, ?_⟩
  · intro x
    dsimp only
    by_cases hc : isPendingRow selfId x = true
    · rw [if_pos hc]
      exact ⟨rfl, rfl, rfl⟩
    · rw [if_neg hc]
      exact ⟨rfl, rfl, rfl⟩
  · intro x hx hxact j hj
    have hpend' : isPendingRow selfId x = true := by
      simp [isPendingRow, hxact, hj, hfresh x hx]
    show (if isPendingRow selfId x then bumpOrder x
      else x).queue_number = some (bumpAt 1 j)
    rw [hpend', if_pos (Eq.refl true)]
    unfold bumpAt
    rw [if_pos (hge1 x hx hxact j hj)]
    simp [bumpOrder, hj]
  · intro x hx hxin
    show (if isPendingRow selfId x then bumpOrder x
      else x).queue_number = x.queue_number
    rw [if_neg (by simp [isPendingRow, hxin])]

theorem shiftGe_id_map (selfId pos : Nat) (t : List Order) :
    (shiftGe selfId pos t).map (·.id) = t.map (·.id) := by
  unfold shiftGe
  rw [List.map_map]
  apply List.map_congr_left
  intro o _
  show (if isPendingRow selfId o && pos ≤ o.queue_number.getD 0
    then bumpOrder o else o).id = o.id
  split <;> rfl

theorem shiftAll_id_map (selfId : Nat) (t : List Order) :
    (shiftAllPending selfId t).map (·.id) = t.map (·.id) := by
  unfold shiftAllPending
  rw [List.map_map]
  apply List.map_congr_left
  intro o _
  show (if isPendingRow selfId o then bumpOrder o else o).id = o.id
  split <;> rfl

theorem shiftGe_append_cart (selfId pos : Nat) (t : List Order) (cart : Order)
    (hcart : cart.id = selfId) :
    shiftGe selfId pos (t ++ [cart]) = shiftGe selfId pos t ++ [cart] := by
  unfold shiftGe
  rw [List.map_append]
  congr 1
  show List.map _ [cart] = [cart]
  simp [isPendingRow, hcart]

theorem shiftAll_append_cart (selfId : Nat) (t : List Order) (cart : Order)
    (hcart : cart.id = selfId) :
    shiftAllPending selfId (t ++ [cart]) = shiftAllPending selfId t ++ [cart] := by
  unfold shiftAllPending
  rw [List.map_append]
  congr 1
  show List.map _ [cart] = [cart]
  simp [isPendingRow, hcart]

/-- Branch reduction of an insert: the new table is a shifted copy of the
prior table plus the saved self row (Processing, queue number `pos`), with
the insert position characterised by `posSpec` and the shift by `rowCorr`. -/
theorem insert_result (s : QState) (u : User)
    (hfr : ∀ o ∈ s.orders, o.id < s.nextId)
    (hqn : ∀ o ∈ s.orders, o.status.isActive = true →
      o.queue_number.isSome = true)
    (hperm : (activeQNs s.orders).Perm
      (List.range' 1 (activeRows s.orders).length)) :
    ∃ (t' : List Order) (pos : Nat),
      applyQOp s (.insert u) =
        ⟨s.nextId + 1,
          t' ++ [(⟨s.nextId, u, .processing, none, some pos⟩ : Order)]⟩ ∧
      posSpec s.orders u pos ∧ rowCorr s.orders t' pos := by
  have hfresh : ∀ o ∈ s.orders, o.id ≠ s.nextId :=
    fun o ho => Nat.ne_of_lt (hfr o ho)
  have hge1 : ∀ x ∈ s.orders, x.status.isActive = true →
      ∀ j, x.queue_number = some j → 1 ≤ j :=
    fun x hx hxa j hj =>
      (qn_le_len s.orders hperm x (activeRows_mem _ _ hx hxa) j hj).1
  have hpend : pendingOrders s.nextId
      (s.orders ++ [(⟨s.nextId, u, .pending, none, none⟩ : Order)]) =
      activeRows s.orders :=
    pendingOrders_append_cart s.orders
      ⟨s.nextId, u, .pending, none, none⟩ hfresh hqn rfl
  simp only [applyQOp, assign_queue_number, hpend]
  by_cases hp : u.selfPriority = true
  · rw [if_pos hp]
    by_cases hreg :
        ((activeRows s.orders).filter fun o =>
          o.user.isNullRegular).isEmpty = false
    · rw [if_pos hreg]
      by_cases hpri :
          ((activeRows s.orders).filter fun o =>
            o.user.isNullPriority).isEmpty = false
      · -- branch A: insert after the last priority order, shifting the tail
        rw [if_pos hpri]
        dsimp only
        refine ⟨shiftGe s.nextId
          (maxQn ((activeRows s.orders).filter fun o =>
            o.user.isNullPriority) + 1) s.orders,
          maxQn ((activeRows s.orders).filter fun o =>
            o.user.isNullPriority) + 1, ?_, ?_, ?_⟩
        · refine congrArg (QState.mk (s.nextId + 1)) ?_
          rw [shiftGe_append_cart s.nextId (maxQn ((activeRows s.orders).filter fun o =>
            o.user.isNullPriority) + 1) s.orders
            (⟨s.nextId, u, .pending, none, none⟩ : Order) rfl]
          rw [saveRow_append_last (shiftGe s.nextId (maxQn ((activeRows s.orders).filter fun o =>
            o.user.isNullPriority) + 1) s.orders)
            (⟨s.nextId, u, .pending, none, none⟩ : Order) (⟨s.nextId, u, .pending, none, some (maxQn ((activeRows s.orders).filter fun o =>
            o.user.isNullPriority) + 1)⟩ : Order)
            (ids_ne_of_map_eq _ s.orders s.nextId
              (shiftGe_id_map s.nextId (maxQn ((activeRows s.orders).filter fun o =>
            o.user.isNullPriority) + 1) s.orders) hfresh) rfl]
          rw [saveRow_append_last (shiftGe s.nextId (maxQn ((activeRows s.orders).filter fun o =>
            o.user.isNullPriority) + 1) s.orders)
            (⟨s.nextId, u, .pending, none, some (maxQn ((activeRows s.orders).filter fun o =>
            o.user.isNullPriority) + 1)⟩ : Order) (⟨s.nextId, u, .processing, none, some (maxQn ((activeRows s.orders).filter fun o =>
            o.user.isNullPriority) + 1)⟩ : Order)
            (ids_ne_of_map_eq _ s.orders s.nextId
              (shiftGe_id_map s.nextId (maxQn ((activeRows s.orders).filter fun o =>
            o.user.isNullPriority) + 1) s.orders) hfresh) rfl]
        · exact Or.inl ⟨hp, ne_nil_of_isEmpty_false _ hreg,
            ne_nil_of_isEmpty_false _ hpri, rfl⟩
        · exact rowCorr_shiftGe s.orders s.nextId _ hfresh
      · -- branch B: insert at position 1, shifting every pending order
        rw [if_neg hpri]
        dsimp only
        refine ⟨shiftAllPending s.nextId s.orders, 1, ?_, ?_, ?_⟩
        · refine congrArg (QState.mk (s.nextId + 1)) ?_
          rw [shiftAll_append_cart s.nextId s.orders (⟨s.nextId, u, .pending, none, none⟩ : Order) rfl]
          rw [saveRow_append_last (shiftAllPending s.nextId s.orders)
            (⟨s.nextId, u, .pending, none, none⟩ : Order) (⟨s.nextId, u, .pending, none, some 1⟩ : Order)
            (ids_ne_of_map_eq _ s.orders s.nextId
              (shiftAll_id_map s.nextId s.orders) hfresh) rfl]
          rw [saveRow_append_last (shiftAllPending s.nextId s.orders)
            (⟨s.nextId, u, .pending, none, some 1⟩ : Order) (⟨s.nextId, u, .processing, none, some 1⟩ : Order)
            (ids_ne_of_map_eq _ s.orders s.nextId
              (shiftAll_id_map s.nextId s.orders) hfresh) rfl]
        · exact Or.inr (Or.inl ⟨hp, ne_nil_of_isEmpty_false _ hreg,
            eq_nil_of_not_isEmpty_false _ hpri, rfl⟩)
        · exact rowCorr_shiftAll s.orders s.nextId hfresh hge1
    · rw [if_neg hreg]
      have hregnil := eq_nil_of_not_isEmpty_false _ hreg
      by_cases hpri :
          ((activeRows s.orders).filter fun o =>
            o.user.isNullPriority).isEmpty = false
      · -- branch C: only priority orders queued, append after the last
        rw [if_pos hpri]
        dsimp only
        refine ⟨s.orders,
          maxQn ((activeRows s.orders).filter fun o =>
            o.user.isNullPriority) + 1, ?_, ?_, ?_⟩
        · refine congrArg (QState.mk (s.nextId + 1)) ?_
          rw [saveRow_append_last s.orders (⟨s.nextId, u, .pending, none, none⟩ : Order)
            (⟨s.nextId, u, .pending, none, some (maxQn ((activeRows s.orders).filter fun o =>
            o.user.isNullPriority) + 1)⟩ : Order) hfresh rfl]
          rw [saveRow_append_last s.orders (⟨s.nextId, u, .pending, none, some (maxQn ((activeRows s.orders).filter fun o =>
            o.user.isNullPriority) + 1)⟩ : Order)
            (⟨s.nextId, u, .processing, none, some (maxQn ((activeRows s.orders).filter fun o =>
            o.user.isNullPriority) + 1)⟩ : Order) hfresh rfl]
        · exact Or.inr (Or.inr (Or.inl ⟨hp, hregnil,
            ne_nil_of_isEmpty_false _ hpri, rfl⟩))
        · apply rowCorr_id
          intro x hx hxact j hj
          have hxa : x ∈ activeRows s.orders := activeRows_mem _ _ hx hxact
          have hnr : x.user.isNullRegular = false := by
            cases hc : x.user.isNullRegular
            · rfl
            · exfalso
              have hmem : x ∈ (activeRows s.orders).filter fun o =>
                  o.user.isNullRegular := List.mem_filter.mpr ⟨hxa, hc⟩
              rw [hregnil] at hmem
              cases hmem
          have hnp : x.user.isNullPriority = true := by
            rw [isNullPriority_not_regular, hnr]
            rfl
          have hxp : x ∈ (activeRows s.orders).filter fun o =>
              o.user.isNullPriority := List.mem_filter.mpr ⟨hxa, hnp⟩
          have := le_maxQn _ x j hxp hj
          omega
      · -- branch D: no queued orders, position 1
        rw [if_neg hpri]
        dsimp only
        have hprinil := eq_nil_of_not_isEmpty_false _ hpri
        refine ⟨s.orders, 1, ?_, ?_, ?_⟩
        · refine congrArg (QState.mk (s.nextId + 1)) ?_
          rw [saveRow_append_last s.orders (⟨s.nextId, u, .pending, none, none⟩ : Order)
            (⟨s.nextId, u, .pending, none, some 1⟩ : Order) hfresh rfl]
          rw [saveRow_append_last s.orders (⟨s.nextId, u, .pending, none, some 1⟩ : Order)
            (⟨s.nextId, u, .processing, none, some 1⟩ : Order) hfresh rfl]
        · exact Or.inr (Or.inr (Or.inr (Or.inl ⟨hp, hregnil, hprinil, rfl⟩)))
        · apply rowCorr_id
          intro x hx hxact j hj
          exfalso
          have hxa : x ∈ activeRows s.orders := activeRows_mem _ _ hx hxact
          cases hc : x.user.isNullRegular
          · have hnp : x.user.isNullPriority = true := by
              rw [isNullPriority_not_regular, hc]
              rfl
            have hmem : x ∈ (activeRows s.orders).filter fun o =>
                o.user.isNullPriority := List.mem_filter.mpr ⟨hxa, hnp⟩
            rw [hprinil] at hmem
            cases hmem
          · have hmem : x ∈ (activeRows s.orders).filter fun o =>
                o.user.isNullRegular := List.mem_filter.mpr ⟨hxa, hc⟩
            rw [hregnil] at hmem
            cases hmem
  · rw [if_neg hp]
    by_cases hpe : (activeRows s.orders).isEmpty = false
    · -- branch E: regular user appends after the maximum queue number
      rw [if_pos hpe]
      dsimp only
      refine ⟨s.orders, maxQn (activeRows s.orders) + 1, ?_, ?_, ?_⟩
      · refine congrArg (QState.mk (s.nextId + 1)) ?_
        rw [saveRow_append_last s.orders (⟨s.nextId, u, .pending, none, none⟩ : Order)
          (⟨s.nextId, u, .pending, none, some (maxQn (activeRows s.orders) + 1)⟩ : Order) hfresh rfl]
        rw [saveRow_append_last s.orders (⟨s.nextId, u, .pending, none, some (maxQn (activeRows s.orders) + 1)⟩ : Order)
          (⟨s.nextId, u, .processing, none, some (maxQn (activeRows s.orders) + 1)⟩ : Order) hfresh rfl]
      · exact Or.inr (Or.inr (Or.inr (Or.inr (Or.inl
          ⟨Bool.not_eq_true _ ▸ hp, ne_nil_of_isEmpty_false _ hpe, rfl⟩))))
      · apply rowCorr_id
        intro x hx hxact j hj
        have hxa : x ∈ activeRows s.orders := activeRows_mem _ _ hx hxact
        have := le_maxQn _ x j hxa hj
        omega
    · -- branch F: empty queue, position 1
      rw [if_neg hpe]
      dsimp only
      have hnil := eq_nil_of_not_isEmpty_false _ hpe
      refine ⟨s.orders, 1, ?_, ?_, ?_⟩
      · refine congrArg (QState.mk (s.nextId + 1)) ?_
        rw [saveRow_append_last s.orders (⟨s.nextId, u, .pending, none, none⟩ : Order)
          (⟨s.nextId, u, .pending, none, some 1⟩ : Order) hfresh rfl]
        rw [saveRow_append_last s.orders (⟨s.nextId, u, .pending, none, some 1⟩ : Order)
          (⟨s.nextId, u, .processing, none, some 1⟩ : Order) hfresh rfl]
      · exact Or.inr (Or.inr (Or.inr (Or.inr (Or.inr
          ⟨Bool.not_eq_true _ ▸ hp, hnil, rfl⟩))))
      · apply rowCorr_id
        intro x hx hxact j hj
        exfalso
        have hxa : x ∈ activeRows s.orders := activeRows_mem _ _ hx hxact
        rw [hnil] at hxa
        cases hxa

/-- An insert preserves the queue invariant. -/
theorem insert_QInv (s : QState) (u : User) (h : QInv s) :
    QInv (applyQOp s (.insert u)) := by
  obtain ⟨hnd, hfr, hqn, hin, hperm⟩ := h
  obtain ⟨t', pos, heq, hps, hcorr⟩ := insert_result s u hfr hqn hperm
  have hids := rowCorr_ids _ _ _ hcorr
  obtain ⟨σ, hσeq, hpres, hactqn, hinqn⟩ := hcorr
  have hposb : 1 ≤ pos ∧ pos ≤ (activeRows s.orders).length + 1 := by
    have hb : ∀ (l : List Order), (∀ o ∈ l, o ∈ activeRows s.orders) →
        maxQn l ≤ (activeRows s.orders).length := by
      intro l hl
      apply maxQn_le
      intro o ho j hj
      exact (qn_le_len s.orders hperm o (hl o ho) j hj).2
    simp only [posSpec] at hps
    rcases hps with ⟨_, _, _, hpos⟩ | ⟨_, _, _, hpos⟩ | ⟨_, _, _, hpos⟩ |
      ⟨_, _, _, hpos⟩ | ⟨_, _, hpos⟩ | ⟨_, _, hpos⟩
    · have := hb ((activeRows s.orders).filter fun o => o.user.isNullPriority)
        (fun o ho => List.mem_of_mem_filter ho)
      omega
    · omega
    · have := hb ((activeRows s.orders).filter fun o => o.user.isNullPriority)
        (fun o ho => List.mem_of_mem_filter ho)
      omega
    · omega
    · have := hb (activeRows s.orders) (fun o ho => ho)
      omega
    · omega
  rw [heq]
  show tableInv (s.nextId + 1)
    (t' ++ [(⟨s.nextId, u, .processing, none, some pos⟩ : Order)])
  have hfr' : ∀ y ∈ t', y.id < s.nextId := by
    intro y hy
    have hmem : y.id ∈ s.orders.map (·.id) := hids ▸ List.mem_map_of_mem _ hy
    obtain ⟨x, hx, hxe⟩ := List.mem_map.mp hmem
    exact hxe ▸ hfr x hx
  refine ⟨?_, ?_, ?_, ?_, ?_⟩
  · rw [List.map_append, hids]
    simp only [List.map_cons, List.map_nil]
    rw [List.nodup_append]
    refine ⟨hnd, List.nodup_singleton _, ?_⟩
    intro a ha hb
    obtain ⟨x, hx, hxe⟩ := List.mem_map.mp ha
    have ha' : a = s.nextId := by simpa using hb
    have := hfr x hx
    omega
  · intro o ho
    rcases List.mem_append.mp ho with h1 | h2
    · exact Nat.lt_succ_of_lt (hfr' o h1)
    · have he : o = ⟨s.nextId, u, .processing, none, some pos⟩ := by
        simpa using h2
      rw [he]
      exact Nat.lt_succ_self s.nextId
  · intro o ho hoact
    rcases List.mem_append.mp ho with h1 | h2
    · rw [hσeq] at h1
      obtain ⟨x, hx, hxe⟩ := List.mem_map.mp h1
      have hxact : x.status.isActive = true := by
        rw [← (hpres x).2.2, hxe]
        exact hoact
      obtain ⟨j, hj⟩ := Option.isSome_iff_exists.mp (hqn x hx hxact)
      rw [← hxe, hactqn x hx hxact j hj]
      rfl
    · have he : o = ⟨s.nextId, u, .processing, none, some pos⟩ := by
        simpa using h2
      rw [he]
      rfl
  · intro o ho hoin
    rcases List.mem_append.mp ho with h1 | h2
    · rw [hσeq] at h1
      obtain ⟨x, hx, hxe⟩ := List.mem_map.mp h1
      have hxin : x.status.isActive = false := by
        rw [← (hpres x).2.2, hxe]
        exact hoin
      rw [← hxe, hinqn x hx hxin]
      exact hin x hx hxin
    · have he : o = ⟨s.nextId, u, .processing, none, some pos⟩ := by
        simpa using h2
      rw [he] at hoin
      cases hoin
  · have hAR1 : activeRows (t' ++
        [(⟨s.nextId, u, .processing, none, some pos⟩ : Order)]) =
        activeRows t' ++ [⟨s.nextId, u, .processing, none, some pos⟩] := by
      rw [activeRows_append]
      rfl
    have hAQ1 : activeQNs (t' ++
        [(⟨s.nextId, u, .processing, none, some pos⟩ : Order)]) =
        activeQNs t' ++ [pos] := by
      rw [activeQNs_append]
      rfl
    have hARlen : (activeRows t').length = (activeRows s.orders).length := by
      rw [hσeq, activeRows_map σ s.orders (fun o => (hpres o).2.2),
        List.length_map]
    have hAQ2 : activeQNs t' = (activeQNs s.orders).map (bumpAt pos) := by
      rw [hσeq]
      unfold activeQNs
      rw [activeRows_map σ s.orders (fun o => (hpres o).2.2)]
      apply filterMap_qn_map
      · intro o ho
        obtain ⟨hom, hoa⟩ := mem_activeRows s.orders o ho
        exact hqn o hom hoa
      · intro o ho j hj
        obtain ⟨hom, hoa⟩ := mem_activeRows s.orders o ho
        exact hactqn o hom hoa j hj
    rw [hAQ1, hAQ2, hAR1, List.length_append, hARlen]
    show ((activeQNs s.orders).map (bumpAt pos) ++ [pos]).Perm
      (List.range' 1 ((activeRows s.orders).length + 1))
    exact perm_insert_bump _ _ pos hperm hposb.1 hposb.2

/-- The decrement map applied to surviving rows by a retire at queue
position `k` (the non-self branch of `remove_from_queue`). -/
def decQn (k : Nat) (x : Order) : Order :=
  if x.status.isActive ∧ k < x.queue_number.getD 0 then
    { x with queue_number := x.queue_number.map (· - 1) }
  else x

theorem decQn_pres (k : Nat) (x : Order) :
    (decQn k x).id = x.id ∧ (decQn k x).user = x.user ∧
      (decQn k x).status = x.status := by
  unfold decQn
  split <;> exact ⟨rfl, rfl, rfl⟩

theorem decQn_qn (k : Nat) (x : Order) (j : Nat)
    (hx : x.status.isActive = true) (hj : x.queue_number = some j) :
    (decQn k x).queue_number = some (if k < j then j - 1 else j) := by
  unfold decQn
  by_cases hc : k < j
  · rw [if_pos ⟨hx, by rw [hj]; simpa using hc⟩, if_pos hc]
    simp [hj]
  · rw [if_neg fun hcon => ?_, if_neg hc]
    · exact hj
    · rw [hj] at hcon
      exact hc (by simpa using hcon.2)

theorem decQn_inactive (k : Nat) (x : Order)
    (hx : x.status.isActive = false) : decQn k x = x := by
  unfold decQn
  rw [if_neg]
  rintro ⟨ha, -⟩
  rw [hx] at ha
  cases ha

theorem retire_result_none (s : QState) (i : Nat)
    (hfind : s.orders.find? (fun o => o.id = i) = none) :
    applyQOp s (.retire i) = s := by
  simp only [applyQOp, hfind]

theorem retire_result_found (s : QState) (i : Nat) (o : Order)
    (hfind : s.orders.find? (fun o => o.id = i) = some o) :
    applyQOp s (.retire i) =
      ⟨s.nextId, remove_from_queue { o with status := .shipped }
        (saveRow s.orders { o with status := .shipped })⟩ := by
  simp only [applyQOp, hfind]

/-- Shape lemma for the retire transition: replacing the middle row by an
inactive cleared row while the side lists keep their ids and already satisfy
the invariant. -/
theorem tableInv_retire_shape (nid : Nat) (t₁ t₂ : List Order) (o z : Order)
    (l₁ l₂ : List Order)
    (hz_id : z.id = o.id) (hz_in : z.status.isActive = false)
    (hz_qn : z.queue_number = none)
    (hids1 : l₁.map (·.id) = t₁.map (·.id))
    (hids2 : l₂.map (·.id) = t₂.map (·.id))
    (hnd : ((t₁ ++ o :: t₂).map (·.id)).Nodup)
    (hfr : ∀ x ∈ t₁ ++ o :: t₂, x.id < nid)
    (hqn' : ∀ x ∈ l₁ ++ l₂, x.status.isActive = true →
      x.queue_number.isSome = true)
    (hin' : ∀ x ∈ l₁ ++ l₂, x.status.isActive = false →
      x.queue_number = none)
    (hperm' : (activeQNs (l₁ ++ l₂)).Perm
      (List.range' 1 (activeRows (l₁ ++ l₂)).length)) :
    tableInv nid (l₁ ++ z :: l₂) := by
  have hfr1 : ∀ x ∈ t₁, x.id < nid :=
    fun x hx => hfr x (List.mem_append_left _ hx)
  have hfr2 : ∀ x ∈ t₂, x.id < nid :=
    fun x hx => hfr x (List.mem_append_right _ (List.mem_cons_of_mem o hx))
  have hfro : o.id < nid :=
    hfr o (List.mem_append_right _ (List.mem_cons_self o t₂))
  refine ⟨?_, ?_, ?_, ?_, ?_⟩
  · rw [List.map_append, List.map_cons, hids1, hids2, hz_id]
    rw [List.map_append, List.map_cons] at hnd
    exact hnd
  · intro x hx
    rcases List.mem_append.mp hx with h1 | h2
    · have hmem : x.id ∈ t₁.map (·.id) :=
        hids1 ▸ List.mem_map_of_mem _ h1
      obtain ⟨y, hy, hye⟩ := List.mem_map.mp hmem
      exact hye ▸ hfr1 y hy
    · rcases List.mem_cons.mp h2 with h3 | h4
      · rw [h3, hz_id]
        exact hfro
      · have hmem : x.id ∈ t₂.map (·.id) :=
          hids2 ▸ List.mem_map_of_mem _ h4
        obtain ⟨y, hy, hye⟩ := List.mem_map.mp hmem
        exact hye ▸ hfr2 y hy
  · intro x hx hxa
    rcases List.mem_append.mp hx with h1 | h2
    · exact hqn' x (List.mem_append_left _ h1) hxa
    · rcases List.mem_cons.mp h2 with h3 | h4
      · rw [h3] at hxa
        rw [hz_in] at hxa
        cases hxa
      · exact hqn' x (List.mem_append_right _ h4) hxa
  · intro x hx hxi
    rcases List.mem_append.mp hx with h1 | h2
    · exact hin' x (List.mem_append_left _ h1) hxi
    · rcases List.mem_cons.mp h2 with h3 | h4
      · rw [h3]
        exact hz_qn
      · exact hin' x (List.mem_append_right _ h4) hxi
  · have hAR : activeRows (l₁ ++ z :: l₂) = activeRows (l₁ ++ l₂) := by
      rw [activeRows_append, activeRows_cons_neg z l₂ hz_in,
        ← activeRows_append]
    have hAQ : activeQNs (l₁ ++ z :: l₂) = activeQNs (l₁ ++ l₂) := by
      rw [activeQNs_append, activeQNs_cons_inactive z l₂ hz_in,
        ← activeQNs_append]
    rw [hAR, hAQ]
    exact hperm'

/-- A retire preserves the queue invariant. -/
theorem retire_QInv (s : QState) (i : Nat) (h : QInv s) :
    QInv (applyQOp s (.retire i)) := by
  cases hfind : s.orders.find? (fun o => o.id = i) with
  | none =>
    rw [retire_result_none s i hfind]
    exact h
  | some o =>
    obtain ⟨hnd, hfr, hqn, hin, hperm⟩ := h
    rw [retire_result_found s i o hfind]
    have hmem : o ∈ s.orders := List.mem_of_find?_eq_some hfind
    obtain ⟨t₁, t₂, he⟩ := List.append_of_mem hmem
    rw [he] at hnd hfr hqn hin hperm ⊢
    rw [saveRow_eq_of_mem t₁ t₂ o { o with status := .shipped } hnd rfl]
    show tableInv s.nextId
      (remove_from_queue { o with status := .shipped }
        (t₁ ++ { o with status := .shipped } :: t₂))
    have homem : o ∈ t₁ ++ o :: t₂ :=
      List.mem_append_right _ (List.mem_cons_self o t₂)
    have hid1 : ∀ x ∈ t₁, x.id ≠ o.id := by
      intro x hx hxe
      rw [List.map_append, List.map_cons] at hnd
      exact (List.nodup_append.mp hnd).2.2
        (List.mem_map_of_mem (·.id) hx)
        (hxe ▸ List.mem_cons_self o.id _)
    have hid2 : ∀ x ∈ t₂, x.id ≠ o.id := by
      intro x hx hxe
      rw [List.map_append, List.map_cons] at hnd
      have h2 := (List.nodup_append.mp hnd).2.1
      exact (List.nodup_cons.mp h2).1
        (hxe ▸ List.mem_map_of_mem (·.id) hx)
    by_cases hoa : o.status.isActive = true
    · -- the retired order is active: it holds queue number k ≥ 1
      obtain ⟨k, hk⟩ := Option.isSome_iff_exists.mp (hqn o homem hoa)
      have hoAR : o ∈ activeRows (t₁ ++ o :: t₂) :=
        activeRows_mem _ o homem hoa
      have hkb := qn_le_len _ hperm o hoAR k hk
      have hnd1 : (((t₁ ++ { o with status := .shipped } :: t₂)).map
          (·.id)).Nodup := by
        rw [List.map_append, List.map_cons] at hnd ⊢
        exact hnd
      have hrm := remove_from_queue_eq
        (t₁ ++ { o with status := .shipped } :: t₂)
        { o with status := .shipped } k
        (List.mem_append_right _ (List.mem_cons_self _ t₂)) hnd1 hk
        (by omega)
      rw [hrm]
      rw [List.map_append, List.map_cons]
      rw [if_pos rfl]
      have hmap1 : ∀ (l : List Order), (∀ x ∈ l, x.id ≠ o.id) →
          (l.map fun x =>
            if x.id = ({ o with status := OrderStatus.shipped } : Order).id
            then { ({ o with status := OrderStatus.shipped } : Order) with
              queue_number := none }
            else if x.status.isActive ∧ k < x.queue_number.getD 0 then
              { x with queue_number := x.queue_number.map (· - 1) }
            else x) = l.map (decQn k) := by
        intro l hl
        apply List.map_congr_left
        intro x hx
        rw [if_neg (hl x hx)]
        rfl
      rw [hmap1 t₁ hid1, hmap1 t₂ hid2]
      apply tableInv_retire_shape s.nextId t₁ t₂ o
        { ({ o with status := OrderStatus.shipped } : Order) with
          queue_number := none }
        (t₁.map (decQn k)) (t₂.map (decQn k)) rfl rfl rfl
      · rw [List.map_map]
        apply List.map_congr_left
        intro x _
        exact (decQn_pres k x).1
      · rw [List.map_map]
        apply List.map_congr_left
        intro x _
        exact (decQn_pres k x).1
      · exact hnd
      · exact hfr
      · intro x hx hxa
        rcases List.mem_append.mp hx with h1 | h2
        · obtain ⟨y, hy, hye⟩ := List.mem_map.mp h1
          have hya : y.status.isActive = true := by
            rw [← (decQn_pres k y).2.2, hye]
            exact hxa
          obtain ⟨j, hj⟩ := Option.isSome_iff_exists.mp
            (hqn y (List.mem_append_left _ hy) hya)
          rw [← hye, decQn_qn k y j hya hj]
          rfl
        · obtain ⟨y, hy, hye⟩ := List.mem_map.mp h2
          have hya : y.status.isActive = true := by
            rw [← (decQn_pres k y).2.2, hye]
            exact hxa
          obtain ⟨j, hj⟩ := Option.isSome_iff_exists.mp
            (hqn y (List.mem_append_right _ (List.mem_cons_of_mem o hy)) hya)
          rw [← hye, decQn_qn k y j hya hj]
          rfl
      · intro x hx hxi
        rcases List.mem_append.mp hx with h1 | h2
        · obtain ⟨y, hy, hye⟩ := List.mem_map.mp h1
          have hyi : y.status.isActive = false := by
            rw [← (decQn_pres k y).2.2, hye]
            exact hxi
          rw [← hye, decQn_inactive k y hyi]
          exact hin y (List.mem_append_left _ hy) hyi
        · obtain ⟨y, hy, hye⟩ := List.mem_map.mp h2
          have hyi : y.status.isActive = false := by
            rw [← (decQn_pres k y).2.2, hye]
            exact hxi
          rw [← hye, decQn_inactive k y hyi]
          exact hin y (List.mem_append_right _ (List.mem_cons_of_mem o hy)) hyi
      · -- the gapless permutation after removing k and decrementing above it
        have hstat : ∀ x, (decQn k x).status = x.status :=
          fun x => (decQn_pres k x).2.2
        have hAQmap : ∀ (l : List Order), (∀ x ∈ l, x.status.isActive = true →
            x.queue_number.isSome = true) →
            activeQNs (l.map (decQn k)) =
              (activeQNs l).map fun n => if k < n then n - 1 else n := by
          intro l hl
          unfold activeQNs
          rw [activeRows_map (decQn k) l hstat]
          apply filterMap_qn_map
          · intro x hx
            obtain ⟨hxm, hxa⟩ := mem_activeRows l x hx
            exact hl x hxm hxa
          · intro x hx j hj
            obtain ⟨hxm, hxa⟩ := mem_activeRows l x hx
            exact decQn_qn k x j hxa hj
        have hqn1 : ∀ x ∈ t₁, x.status.isActive = true →
            x.queue_number.isSome = true :=
          fun x hx => hqn x (List.mem_append_left _ hx)
        have hqn2 : ∀ x ∈ t₂, x.status.isActive = true →
            x.queue_number.isSome = true :=
          fun x hx => hqn x (List.mem_append_right _ (List.mem_cons_of_mem o hx))
        rw [activeQNs_append, activeRows_append, hAQmap t₁ hqn1, hAQmap t₂ hqn2]
        rw [activeRows_map (decQn k) t₁ hstat, activeRows_map (decQn k) t₂ hstat]
        rw [List.length_append, List.length_map, List.length_map]
        rw [← List.map_append]
        have hperm0 : (activeQNs t₁ ++ k :: activeQNs t₂).Perm
            (List.range' 1 ((activeRows t₁).length + 1 +
              (activeRows t₂).length)) := by
          have h1 : activeQNs (t₁ ++ o :: t₂) =
              activeQNs t₁ ++ k :: activeQNs t₂ := by
            rw [activeQNs_append, activeQNs_cons_active o t₂ k hoa hk]
          have h2 : (activeRows (t₁ ++ o :: t₂)).length =
              (activeRows t₁).length + 1 + (activeRows t₂).length := by
            rw [activeRows_append, activeRows_cons_pos o t₂ hoa]
            simp [List.length_append]
            omega
          rw [h1, h2] at hperm
          exact hperm
        have hperm1 : (k :: (activeQNs t₁ ++ activeQNs t₂)).Perm
            (List.range' 1 ((activeRows t₁).length + 1 +
              (activeRows t₂).length)) :=
          List.perm_middle.symm.trans hperm0
        have := perm_retire (activeQNs t₁ ++ activeQNs t₂)
          ((activeRows t₁).length + 1 + (activeRows t₂).length) k hperm1
        have harith : (activeRows t₁).length + 1 + (activeRows t₂).length - 1 =
            (activeRows t₁).length + (activeRows t₂).length := by omega
        rw [harith] at this
        exact this
    · -- the retired order was inactive: nothing moves
      have hqnone : o.queue_number = none := by
        cases ho : o.status.isActive
        · exact hin o homem ho
        · exact absurd ho hoa
      have hrm : remove_from_queue { o with status := .shipped }
          (t₁ ++ { o with status := .shipped } :: t₂) =
          t₁ ++ { o with status := .shipped } :: t₂ := by
        unfold remove_from_queue
        rw [if_neg]
        show ¬ (({ o with status := OrderStatus.shipped } :
          Order)).queue_number.getD 0 ≠ 0
        simp [hqnone]
      rw [hrm]
      apply tableInv_retire_shape s.nextId t₁ t₂ o
        { o with status := OrderStatus.shipped } t₁ t₂ rfl rfl
      · show o.queue_number = none
        exact hqnone
      · rfl
      · rfl
      · exact hnd
      · exact hfr
      · intro x hx hxa
        rcases List.mem_append.mp hx with h1 | h2
        · exact hqn x (List.mem_append_left _ h1) hxa
        · exact hqn x (List.mem_append_right _ (List.mem_cons_of_mem o h2)) hxa
      · intro x hx hxi
        rcases List.mem_append.mp hx with h1 | h2
        · exact hin x (List.mem_append_left _ h1) hxi
        · exact hin x (List.mem_append_right _ (List.mem_cons_of_mem o h2)) hxi
      · have hAR : activeRows (t₁ ++ t₂) = activeRows (t₁ ++ o :: t₂) := by
          rw [activeRows_append, activeRows_append,
            activeRows_cons_neg o t₂ (by
              cases ho : o.status.isActive
              · rfl
              · exact absurd ho hoa)]
        have hAQ : activeQNs (t₁ ++ t₂) = activeQNs (t₁ ++ o :: t₂) := by
          rw [activeQNs_append, activeQNs_append,
            activeQNs_cons_inactive o t₂ (by
              cases ho : o.status.isActive
              · rfl
              · exact absurd ho hoa)]
        rw [hAR, hAQ]
        exact hperm

/-- Every queue operation preserves the queue invariant. -/
theorem applyQOp_QInv (s : QState) (op : QOp) (h : QInv s) :
    QInv (applyQOp s op) := by
  cases op with
  | insert u => exact insert_QInv s u h
  | retire i => exact retire_QInv s i h

/-- The empty queue satisfies the queue invariant. -/
theorem QInv_init : QInv ⟨0, []⟩ := by
  refine ⟨List.nodup_nil, ?_, ?_, ?_, List.Perm.refl _⟩ <;>
    · intro o ho
      cases ho

/-- The queue invariant holds after every operation sequence. -/
theorem runQOps_QInv (ops : List QOp) : QInv (runQOps ops) := by
  suffices h : ∀ (s : QState), QInv s → QInv (ops.foldl applyQOp s) from
    h ⟨0, []⟩ QInv_init
  induction ops with
  | nil => exact fun s hs => hs
  | cons op rest ih => exact fun s hs => ih _ (applyQOp_QInv s op hs)

/-- C2: after every sequence of queue insert (`assign_queue_number` at
checkout/reopen) and retire (`remove_from_queue` at ship/cancel) operations
starting from the empty queue, the queue numbers held by orders with status
Pending or Processing are exactly the contiguous range `1..N` with no gaps
and no duplicates, where `N` is the count of such orders. -/
theorem C2_queue_numbers_gapless (ops : List QOp) :
    (activeQNs (runQOps ops).orders).Perm
      (List.range' 1 (activeRows (runQOps ops).orders).length) :=
  (runQOps_QInv ops).2.2.2.2

/-- The priority-ordering invariant on a table: among active orders, every
spec-priority order's queue number is strictly below every non-priority
order's, and within each class queue numbers follow insertion order
(primary-key order). -/
def prioInv (t : List Order) : Prop :=
  ∀ o₁ ∈ activeRows t, ∀ o₂ ∈ activeRows t,
    (o₁.user.specPriority = true → o₂.user.specPriority = false →
      o₁.queue_number.getD 0 < o₂.queue_number.getD 0) ∧
    (o₁.user.specPriority = o₂.user.specPriority → o₁.id < o₂.id →
      o₁.queue_number.getD 0 < o₂.queue_number.getD 0)

theorem bumpAt_strictMono (pos a b : Nat) (h : a < b) :
    bumpAt pos a < bumpAt pos b := by
  unfold bumpAt
  split <;> split <;> omega

theorem bumpAt_lt_pos (pos j : Nat) (h : j < pos) : bumpAt pos j < pos := by
  unfold bumpAt
  rw [if_neg (by omega)]
  exact h

theorem bumpAt_gt_pos (pos j : Nat) (h : pos ≤ j) : pos < bumpAt pos j := by
  unfold bumpAt
  rw [if_pos h]
  omega

theorem dec_strictMono (k a b : Nat) (ha : a ≠ k) (hb : b ≠ k) (h : a < b) :
    (if k < a then a - 1 else a) < (if k < b then b - 1 else b) := by
  split <;> split <;> omega

/-- Where the insert position sits relative to the two user classes, under
NULL-consistent documents: a priority insert lands strictly above every
active priority order and at or below every active regular order; a regular
insert lands strictly above everything. -/
theorem pos_class_bounds (s : QState) (u : User) (pos : Nat)
    (hps : posSpec s.orders u pos)
    (hqn : ∀ o ∈ s.orders, o.status.isActive = true →
      o.queue_number.isSome = true)
    (hperm : (activeQNs s.orders).Perm
      (List.range' 1 (activeRows s.orders).length))
    (hdocs : ∀ o ∈ s.orders, o.user.docsConsistent)
    (hprio : prioInv s.orders) :
    (u.specPriority = true →
      (∀ x ∈ activeRows s.orders, x.user.specPriority = true →
        ∀ j, x.queue_number = some j → j < pos) ∧
      (∀ x ∈ activeRows s.orders, x.user.specPriority = false →
        ∀ j, x.queue_number = some j → pos ≤ j)) ∧
    (u.specPriority = false →
      ∀ x ∈ activeRows s.orders, ∀ j, x.queue_number = some j → j < pos) := by
  have hclass : ∀ x ∈ activeRows s.orders,
      x.user.isNullPriority = x.user.specPriority :=
    fun x hx => isNullPriority_eq_spec_of_docs _
      (hdocs x (mem_activeRows _ _ hx).1)
  have hclassR : ∀ x ∈ activeRows s.orders,
      x.user.isNullRegular = !x.user.specPriority := by
    intro x hx
    have h1 := isNullPriority_not_regular x.user
    have h2 := hclass x hx
    cases hr : x.user.isNullRegular <;>
      cases hsp : x.user.specPriority <;> simp_all
  have hpriL_mem : ∀ x ∈ activeRows s.orders, x.user.specPriority = true →
      x ∈ (activeRows s.orders).filter fun o => o.user.isNullPriority :=
    fun x hx hsp => List.mem_filter.mpr
      ⟨hx, show x.user.isNullPriority = true from (hclass x hx).trans hsp⟩
  have hpriL_spec : ∀ x ∈ ((activeRows s.orders).filter fun o =>
      o.user.isNullPriority), x.user.specPriority = true := by
    intro x hx
    have h' := List.mem_filter.mp hx
    rw [← hclass x h'.1]
    exact h'.2
  have hregL_mem : ∀ x ∈ activeRows s.orders, x.user.specPriority = false →
      x ∈ (activeRows s.orders).filter fun o => o.user.isNullRegular :=
    fun x hx hsp => List.mem_filter.mpr
      ⟨hx, show x.user.isNullRegular = true from by
        rw [hclassR x hx, hsp]; rfl⟩
  simp only [posSpec] at hps
  rcases hps with ⟨hsp', hregne, hprine, hpos⟩ | ⟨hsp', hregne, hprinil, hpos⟩ |
    ⟨hsp', hregnil, hprine, hpos⟩ | ⟨hsp', hregnil, hprinil, hpos⟩ |
    ⟨hspf, hne, hpos⟩ | ⟨hspf, hnil, hpos⟩
  · -- A: both partitions nonempty, pos = maxQn(priority) + 1
    have hspec : u.specPriority = true := by
      rw [← selfPriority_eq_spec]
      exact hsp'
    refine ⟨fun _ => ⟨?_, ?_⟩, fun hfalse => ?_⟩
    · intro x hx hxp j hj
      have := le_maxQn _ x j (hpriL_mem x hx hxp) hj
      omega
    · intro x hx hxp j hj
      obtain ⟨p₀, hp₀⟩ := List.exists_mem_of_ne_nil _ hprine
      have hp₀AR := List.mem_of_mem_filter hp₀
      obtain ⟨j₀, hj₀⟩ := Option.isSome_iff_exists.mp
        (hqn p₀ (mem_activeRows _ _ hp₀AR).1 (mem_activeRows _ _ hp₀AR).2)
      obtain ⟨p, hpmem, hpq⟩ := maxQn_mem _ p₀ j₀ hp₀ hj₀
      have hpAR := List.mem_of_mem_filter hpmem
      have hcl := (hprio p hpAR x hx).1 (hpriL_spec p hpmem) hxp
      rw [hpq, hj] at hcl
      simp only [Option.getD_some] at hcl
      omega
    · rw [hspec] at hfalse
      cases hfalse
  · -- B: no priority orders queued, pos = 1
    have hspec : u.specPriority = true := by
      rw [← selfPriority_eq_spec]
      exact hsp'
    refine ⟨fun _ => ⟨?_, ?_⟩, fun hfalse => ?_⟩
    · intro x hx hxp j hj
      exfalso
      have hxm := hpriL_mem x hx hxp
      rw [hprinil] at hxm
      cases hxm
    · intro x hx hxp j hj
      have := (qn_le_len s.orders hperm x hx j hj).1
      omega
    · rw [hspec] at hfalse
      cases hfalse
  · -- C: only priority orders queued, pos = maxQn(priority) + 1
    have hspec : u.specPriority = true := by
      rw [← selfPriority_eq_spec]
      exact hsp'
    refine ⟨fun _ => ⟨?_, ?_⟩, fun hfalse => ?_⟩
    · intro x hx hxp j hj
      have := le_maxQn _ x j (hpriL_mem x hx hxp) hj
      omega
    · intro x hx hxp j hj
      exfalso
      have hxm := hregL_mem x hx hxp
      rw [hregnil] at hxm
      cases hxm
    · rw [hspec] at hfalse
      cases hfalse
  · -- D: empty queue (as partitioned), pos = 1
    have hspec : u.specPriority = true := by
      rw [← selfPriority_eq_spec]
      exact hsp'
    refine ⟨fun _ => ⟨?_, ?_⟩, fun hfalse => ?_⟩
    · intro x hx hxp j hj
      exfalso
      have hxm := hpriL_mem x hx hxp
      rw [hprinil] at hxm
      cases hxm
    · intro x hx hxp j hj
      exfalso
      have hxm := hregL_mem x hx hxp
      rw [hregnil] at hxm
      cases hxm
    · rw [hspec] at hfalse
      cases hfalse
  · -- E: regular insert over a nonempty queue, pos = maxQn + 1
    have hspec : u.specPriority = false := by
      rw [← selfPriority_eq_spec]
      exact hspf
    refine ⟨fun htrue => ?_, fun _ => ?_⟩
    · rw [hspec] at htrue
      cases htrue
    · intro x hx j hj
      have := le_maxQn _ x j hx hj
      omega
  · -- F: regular insert into an empty queue, pos = 1
    have hspec : u.specPriority = false := by
      rw [← selfPriority_eq_spec]
      exact hspf
    refine ⟨fun htrue => ?_, fun _ => ?_⟩
    · rw [hspec] at htrue
      cases htrue
    · intro x hx j hj
      exfalso
      rw [hnil] at hx
      cases hx

/-- An insert by a NULL-consistent user preserves document consistency and
the priority ordering of the active queue. -/
theorem insert_prio (s : QState) (u : User) (h : QInv s)
    (hdocs : ∀ o ∈ s.orders, o.user.docsConsistent)
    (hprio : prioInv s.orders) (hu : u.docsConsistent) :
    (∀ o ∈ (applyQOp s (.insert u)).orders, o.user.docsConsistent) ∧
    prioInv (applyQOp s (.insert u)).orders := by
  obtain ⟨hnd, hfr, hqn, hin, hperm⟩ := h
  obtain ⟨t', pos, heq, hps, hcorr⟩ := insert_result s u hfr hqn hperm
  obtain ⟨σ, hσeq, hpres, hactqn, hinqn⟩ := hcorr
  obtain ⟨hcb1, hcb2⟩ := pos_class_bounds s u pos hps hqn hperm hdocs hprio
  rw [heq]
  show (∀ o ∈ t' ++ [(⟨s.nextId, u, .processing, none, some pos⟩ : Order)],
      o.user.docsConsistent) ∧
    prioInv (t' ++ [(⟨s.nextId, u, .processing, none, some pos⟩ : Order)])
  have hARnew : activeRows (t' ++
      [(⟨s.nextId, u, .processing, none, some pos⟩ : Order)]) =
      (activeRows s.orders).map σ ++
        [⟨s.nextId, u, .processing, none, some pos⟩] := by
    rw [activeRows_append, hσeq, activeRows_map σ _ (fun o => (hpres o).2.2)]
    rfl
  constructor
  · intro o ho
    rcases List.mem_append.mp ho with h1 | h2
    · rw [hσeq] at h1
      obtain ⟨x, hx, hxe⟩ := List.mem_map.mp h1
      have : o.user = x.user := by
        rw [← hxe]
        exact (hpres x).2.1
      rw [this]
      exact hdocs x hx
    · have he : o = ⟨s.nextId, u, .processing, none, some pos⟩ := by
        simpa using h2
      rw [he]
      exact hu
  · intro o₁ ho₁ o₂ ho₂
    rw [hARnew] at ho₁ ho₂
    have hxfact : ∀ x ∈ activeRows s.orders, ∃ j, x.queue_number = some j ∧
        (σ x).queue_number = some (bumpAt pos j) := by
      intro x hx
      obtain ⟨hxm, hxa⟩ := mem_activeRows s.orders x hx
      obtain ⟨j, hj⟩ := Option.isSome_iff_exists.mp (hqn x hxm hxa)
      exact ⟨j, hj, hactqn x hxm hxa j hj⟩
    rcases List.mem_append.mp ho₁ with h1 | h1'
    · obtain ⟨x₁, hx₁, he₁⟩ := List.mem_map.mp h1
      obtain ⟨j₁, hj₁, hb₁⟩ := hxfact x₁ hx₁
      have hu₁ : o₁.user = x₁.user := by
        rw [← he₁]
        exact (hpres x₁).2.1
      have hq₁ : o₁.queue_number = some (bumpAt pos j₁) := by
        rw [← he₁]
        exact hb₁
      have hi₁ : o₁.id = x₁.id := by
        rw [← he₁]
        exact (hpres x₁).1
      rcases List.mem_append.mp ho₂ with h2 | h2'
      · -- both are shifted prior rows
        obtain ⟨x₂, hx₂, he₂⟩ := List.mem_map.mp h2
        obtain ⟨j₂, hj₂, hb₂⟩ := hxfact x₂ hx₂
        have hu₂ : o₂.user = x₂.user := by
          rw [← he₂]
          exact (hpres x₂).2.1
        have hq₂ : o₂.queue_number = some (bumpAt pos j₂) := by
          rw [← he₂]
          exact hb₂
        have hi₂ : o₂.id = x₂.id := by
          rw [← he₂]
          exact (hpres x₂).1
        constructor
        · intro hp1 hp2
          rw [hu₁] at hp1
          rw [hu₂] at hp2
          have hlt := (hprio x₁ hx₁ x₂ hx₂).1 hp1 hp2
          rw [hj₁, hj₂] at hlt
          simp only [Option.getD_some] at hlt
          rw [hq₁, hq₂]
          simp only [Option.getD_some]
          exact bumpAt_strictMono pos j₁ j₂ hlt
        · intro hpe hidlt
          rw [hu₁, hu₂] at hpe
          rw [hi₁, hi₂] at hidlt
          have hlt := (hprio x₁ hx₁ x₂ hx₂).2 hpe hidlt
          rw [hj₁, hj₂] at hlt
          simp only [Option.getD_some] at hlt
          rw [hq₁, hq₂]
          simp only [Option.getD_some]
          exact bumpAt_strictMono pos j₁ j₂ hlt
      · -- o₂ is the newly inserted row
        have he₂ : o₂ = ⟨s.nextId, u, .processing, none, some pos⟩ := by
          simpa using h2'
        constructor
        · intro hp1 hp2
          rw [hu₁] at hp1
          rw [he₂] at hp2 ⊢
          have hu2 : u.specPriority = false := hp2
          have hjlt := hcb2 hu2 x₁ hx₁ j₁ hj₁
          rw [hq₁]
          simp only [Option.getD_some]
          exact bumpAt_lt_pos pos j₁ hjlt
        · intro hpe hidlt
          rw [hu₁] at hpe
          rw [he₂] at hpe ⊢
          rw [hq₁]
          simp only [Option.getD_some]
          cases hu' : u.specPriority
          · have hjlt := hcb2 hu' x₁ hx₁ j₁ hj₁
            exact bumpAt_lt_pos pos j₁ hjlt
          · have hx1p : x₁.user.specPriority = true := by
              rw [hpe]
              exact hu'
            have hjlt := (hcb1 hu').1 x₁ hx₁ hx1p j₁ hj₁
            exact bumpAt_lt_pos pos j₁ hjlt
    · -- o₁ is the newly inserted row
      have he₁ : o₁ = ⟨s.nextId, u, .processing, none, some pos⟩ := by
        simpa using h1'
      rcases List.mem_append.mp ho₂ with h2 | h2'
      · obtain ⟨x₂, hx₂, he₂⟩ := List.mem_map.mp h2
        obtain ⟨j₂, hj₂, hb₂⟩ := hxfact x₂ hx₂
        have hu₂ : o₂.user = x₂.user := by
          rw [← he₂]
          exact (hpres x₂).2.1
        have hq₂ : o₂.queue_number = some (bumpAt pos j₂) := by
          rw [← he₂]
          exact hb₂
        have hi₂ : o₂.id = x₂.id := by
          rw [← he₂]
          exact (hpres x₂).1
        constructor
        · intro hp1 hp2
          rw [he₁] at hp1 ⊢
          have hu1 : u.specPriority = true := hp1
          rw [hu₂] at hp2
          have hge := (hcb1 hu1).2 x₂ hx₂ hp2 j₂ hj₂
          rw [hq₂]
          simp only [Option.getD_some]
          exact bumpAt_gt_pos pos j₂ hge
        · intro hpe hidlt
          exfalso
          rw [he₁] at hidlt
          rw [hi₂] at hidlt
          have hlt := hfr x₂ (mem_activeRows s.orders x₂ hx₂).1
          have : s.nextId < x₂.id := hidlt
          omega
      · have he₂ : o₂ = ⟨s.nextId, u, .processing, none, some pos⟩ := by
          simpa using h2'
        constructor
        · intro hp1 hp2
          exfalso
          rw [he₁] at hp1
          rw [he₂] at hp2
          have h1t : u.specPriority = true := hp1
          have h2f : u.specPriority = false := hp2
          rw [h1t] at h2f
          cases h2f
        · intro hpe hidlt
          exfalso
          rw [he₁, he₂] at hidlt
          exact absurd hidlt (lt_irrefl _)

/-- A retire preserves document consistency and the priority ordering of
the active queue. -/
theorem retire_prio (s : QState) (i : Nat) (h : QInv s)
    (hdocs : ∀ o ∈ s.orders, o.user.docsConsistent)
    (hprio : prioInv s.orders) :
    (∀ o ∈ (applyQOp s (.retire i)).orders, o.user.docsConsistent) ∧
    prioInv (applyQOp s (.retire i)).orders := by
  cases hfind : s.orders.find? (fun o => o.id = i) with
  | none =>
    rw [retire_result_none s i hfind]
    exact ⟨hdocs, hprio⟩
  | some o =>
    obtain ⟨hnd, hfr, hqn, hin, hperm⟩ := h
    rw [retire_result_found s i o hfind]
    have hmem : o ∈ s.orders := List.mem_of_find?_eq_some hfind
    obtain ⟨t₁, t₂, he⟩ := List.append_of_mem hmem
    rw [he] at hnd hfr hqn hin hperm hdocs hprio ⊢
    rw [saveRow_eq_of_mem t₁ t₂ o { o with status := .shipped } hnd rfl]
    show (∀ x ∈ remove_from_queue { o with status := .shipped }
        (t₁ ++ { o with status := .shipped } :: t₂), x.user.docsConsistent) ∧
      prioInv (remove_from_queue { o with status := .shipped }
        (t₁ ++ { o with status := .shipped } :: t₂))
    have homem : o ∈ t₁ ++ o :: t₂ :=
      List.mem_append_right _ (List.mem_cons_self o t₂)
    have hid1 : ∀ x ∈ t₁, x.id ≠ o.id := by
      intro x hx hxe
      rw [List.map_append, List.map_cons] at hnd
      exact (List.nodup_append.mp hnd).2.2
        (List.mem_map_of_mem (·.id) hx)
        (hxe ▸ List.mem_cons_self o.id _)
    have hid2 : ∀ x ∈ t₂, x.id ≠ o.id := by
      intro x hx hxe
      rw [List.map_append, List.map_cons] at hnd
      have h2 := (List.nodup_append.mp hnd).2.1
      exact (List.nodup_cons.mp h2).1
        (hxe ▸ List.mem_map_of_mem (·.id) hx)
    by_cases hoa : o.status.isActive = true
    · obtain ⟨k, hk⟩ := Option.isSome_iff_exists.mp (hqn o homem hoa)
      have hoAR : o ∈ activeRows (t₁ ++ o :: t₂) :=
        activeRows_mem _ o homem hoa
      have hkb := qn_le_len _ hperm o hoAR k hk
      have hnd1 : (((t₁ ++ { o with status := .shipped } :: t₂)).map
          (·.id)).Nodup := by
        rw [List.map_append, List.map_cons] at hnd ⊢
        exact hnd
      have hrm := remove_from_queue_eq
        (t₁ ++ { o with status := .shipped } :: t₂)
        { o with status := .shipped } k
        (List.mem_append_right _ (List.mem_cons_self _ t₂)) hnd1 hk
        (by omega)
      rw [hrm]
      rw [List.map_append, List.map_cons]
      rw [if_pos rfl]
      have hmap1 : ∀ (l : List Order), (∀ x ∈ l, x.id ≠ o.id) →
          (l.map fun x =>
            if x.id = ({ o with status := OrderStatus.shipped } : Order).id
            then { ({ o with status := OrderStatus.shipped } : Order) with
              queue_number := none }
            else if x.status.isActive ∧ k < x.queue_number.getD 0 then
              { x with queue_number := x.queue_number.map (· - 1) }
            else x) = l.map (decQn k) := by
        intro l hl
        apply List.map_congr_left
        intro x hx
        rw [if_neg (hl x hx)]
        rfl
      rw [hmap1 t₁ hid1, hmap1 t₂ hid2]
      -- nodup of the active queue numbers separates k from the survivors
      have h1 : activeQNs (t₁ ++ o :: t₂) =
          activeQNs t₁ ++ k :: activeQNs t₂ := by
        rw [activeQNs_append, activeQNs_cons_active o t₂ k hoa hk]
      have hAQnd : (activeQNs t₁ ++ k :: activeQNs t₂).Nodup := by
        rw [← h1]
        exact hperm.nodup_iff.mpr
          (List.nodup_range' 1 (activeRows (t₁ ++ o :: t₂)).length 1
            (by omega))
      have hne1 : ∀ y ∈ activeRows t₁, ∀ j, y.queue_number = some j →
          j ≠ k := by
        intro y hy j hj hjk
        have hjm : j ∈ activeQNs t₁ := List.mem_filterMap.mpr ⟨y, hy, hj⟩
        exact (List.nodup_append.mp hAQnd).2.2 hjm
          (by rw [hjk]; exact List.mem_cons_self k _)
      have hne2 : ∀ y ∈ activeRows t₂, ∀ j, y.queue_number = some j →
          j ≠ k := by
        intro y hy j hj hjk
        have hjm : j ∈ activeQNs t₂ := List.mem_filterMap.mpr ⟨y, hy, hj⟩
        have hknotin := (List.nodup_cons.mp
          (List.nodup_append.mp hAQnd).2.1).1
        rw [hjk] at hjm
        exact hknotin hjm
      have hARres : activeRows (t₁.map (decQn k) ++
          ({ ({ o with status := OrderStatus.shipped } : Order) with
            queue_number := none }) :: t₂.map (decQn k)) =
          (activeRows t₁).map (decQn k) ++ (activeRows t₂).map (decQn k) := by
        rw [activeRows_append, activeRows_cons_neg
            { ({ o with status := OrderStatus.shipped } : Order) with
              queue_number := none } (t₂.map (decQn k)) rfl,
          activeRows_map (decQn k) t₁ (fun x => (decQn_pres k x).2.2),
          activeRows_map (decQn k) t₂ (fun x => (decQn_pres k x).2.2)]
      constructor
      · intro x hx
        rcases List.mem_append.mp hx with h1' | h2'
        · obtain ⟨y, hy, hye⟩ := List.mem_map.mp h1'
          have hxy : x.user = y.user := by
            rw [← hye]
            exact (decQn_pres k y).2.1
          rw [hxy]
          exact hdocs y (List.mem_append_left _ hy)
        · rcases List.mem_cons.mp h2' with h3 | h4
          · rw [h3]
            show o.user.docsConsistent
            exact hdocs o homem
          · obtain ⟨y, hy, hye⟩ := List.mem_map.mp h4
            have hxy : x.user = y.user := by
              rw [← hye]
              exact (decQn_pres k y).2.1
            rw [hxy]
            exact hdocs y
              (List.mem_append_right _ (List.mem_cons_of_mem o hy))
      · intro o₁ ho₁ o₂ ho₂
        rw [hARres] at ho₁ ho₂
        have hsrc : ∀ x, x ∈ (activeRows t₁).map (decQn k) ++
            (activeRows t₂).map (decQn k) →
            ∃ y, y ∈ activeRows (t₁ ++ o :: t₂) ∧ x = decQn k y ∧
              ∃ j, y.queue_number = some j ∧ j ≠ k := by
          intro x hx
          rcases List.mem_append.mp hx with h1' | h2'
          · obtain ⟨y, hy, hye⟩ := List.mem_map.mp h1'
            obtain ⟨hym, hya⟩ := mem_activeRows t₁ y hy
            obtain ⟨j, hj⟩ := Option.isSome_iff_exists.mp
              (hqn y (List.mem_append_left _ hym) hya)
            refine ⟨y, ?_, hye.symm, j, hj, hne1 y hy j hj⟩
            rw [activeRows_append]
            exact List.mem_append_left _ hy
          · obtain ⟨y, hy, hye⟩ := List.mem_map.mp h2'
            obtain ⟨hym, hya⟩ := mem_activeRows t₂ y hy
            obtain ⟨j, hj⟩ := Option.isSome_iff_exists.mp
              (hqn y (List.mem_append_right _ (List.mem_cons_of_mem o hym))
                hya)
            refine ⟨y, ?_, hye.symm, j, hj, hne2 y hy j hj⟩
            rw [activeRows_append, activeRows_cons_pos o t₂ hoa]
            exact List.mem_append_right _ (List.mem_cons_of_mem o hy)
        obtain ⟨y₁, hy₁, he₁, j₁, hj₁, hjk₁⟩ := hsrc o₁ ho₁
        obtain ⟨y₂, hy₂, he₂, j₂, hj₂, hjk₂⟩ := hsrc o₂ ho₂
        have hq₁ : o₁.queue_number = some (if k < j₁ then j₁ - 1 else j₁) := by
          rw [he₁]
          exact decQn_qn k y₁ j₁ (mem_activeRows _ _ hy₁).2 hj₁
        have hq₂ : o₂.queue_number = some (if k < j₂ then j₂ - 1 else j₂) := by
          rw [he₂]
          exact decQn_qn k y₂ j₂ (mem_activeRows _ _ hy₂).2 hj₂
        have hu₁ : o₁.user = y₁.user := by
          rw [he₁]
          exact (decQn_pres k y₁).2.1
        have hu₂ : o₂.user = y₂.user := by
          rw [he₂]
          exact (decQn_pres k y₂).2.1
        have hi₁ : o₁.id = y₁.id := by
          rw [he₁]
          exact (decQn_pres k y₁).1
        have hi₂ : o₂.id = y₂.id := by
          rw [he₂]
          exact (decQn_pres k y₂).1
        constructor
        · intro hp1 hp2
          rw [hu₁] at hp1
          rw [hu₂] at hp2
          have hlt := (hprio y₁ hy₁ y₂ hy₂).1 hp1 hp2
          rw [hj₁, hj₂] at hlt
          simp only [Option.getD_some] at hlt
          rw [hq₁, hq₂]
          simp only [Option.getD_some]
          exact dec_strictMono k j₁ j₂ hjk₁ hjk₂ hlt
        · intro hpe hidlt
          rw [hu₁, hu₂] at hpe
          rw [hi₁, hi₂] at hidlt
          have hlt := (hprio y₁ hy₁ y₂ hy₂).2 hpe hidlt
          rw [hj₁, hj₂] at hlt
          simp only [Option.getD_some] at hlt
          rw [hq₁, hq₂]
          simp only [Option.getD_some]
          exact dec_strictMono k j₁ j₂ hjk₁ hjk₂ hlt
    · -- the retired order was inactive: active rows are untouched
      have hoaf : o.status.isActive = false := by
        cases ho : o.status.isActive
        · rfl
        · exact absurd ho hoa
      have hqnone : o.queue_number = none := hin o homem hoaf
      have hrm : remove_from_queue { o with status := .shipped }
          (t₁ ++ { o with status := .shipped } :: t₂) =
          t₁ ++ { o with status := .shipped } :: t₂ := by
        unfold remove_from_queue
        rw [if_neg]
        show ¬ (({ o with status := OrderStatus.shipped } :
          Order)).queue_number.getD 0 ≠ 0
        simp [hqnone]
      rw [hrm]
      have hANeq : activeRows (t₁ ++ o :: t₂) =
          activeRows t₁ ++ activeRows t₂ := by
        rw [activeRows_append, activeRows_cons_neg o t₂ hoaf]
      have hARres : activeRows (t₁ ++ { o with status := .shipped } :: t₂) =
          activeRows t₁ ++ activeRows t₂ := by
        rw [activeRows_append, activeRows_cons_neg
          { o with status := OrderStatus.shipped } t₂ rfl]
      constructor
      · intro x hx
        rcases List.mem_append.mp hx with h1' | h2'
        · exact hdocs x (List.mem_append_left _ h1')
        · rcases List.mem_cons.mp h2' with h3 | h4
          · rw [h3]
            show o.user.docsConsistent
            exact hdocs o homem
          · exact hdocs x
              (List.mem_append_right _ (List.mem_cons_of_mem o h4))
      · intro o₁ ho₁ o₂ ho₂
        rw [hARres] at ho₁ ho₂
        exact hprio o₁ (by rw [hANeq]; exact ho₁) o₂ (by rw [hANeq]; exact ho₂)

/-- Folding queue operations preserves the combined priority invariant
when every inserted user is NULL-consistent. -/
theorem foldl_prio (ops : List QOp) : ∀ (s : QState), QInv s →
    (∀ u : User, QOp.insert u ∈ ops → u.docsConsistent) →
    (∀ o ∈ s.orders, o.user.docsConsistent) → prioInv s.orders →
    (∀ o ∈ (ops.foldl applyQOp s).orders, o.user.docsConsistent) ∧
    prioInv (ops.foldl applyQOp s).orders := by
  induction ops with
  | nil => exact fun s _ _ hd hp => ⟨hd, hp⟩
  | cons op rest ih =>
    intro s hQ hdos hd hp
    rw [List.foldl_cons]
    cases op with
    | insert u =>
      have hcd : u.docsConsistent := hdos u (List.mem_cons_self _ _)
      obtain ⟨hd', hp'⟩ := insert_prio s u hQ hd hp hcd
      exact ih _ (insert_QInv s u hQ)
        (fun v hv => hdos v (List.mem_cons_of_mem _ hv)) hd' hp'
    | retire i =>
      obtain ⟨hd', hp'⟩ := retire_prio s i hQ hd hp
      exact ih _ (retire_QInv s i hQ)
        (fun v hv => hdos v (List.mem_cons_of_mem _ hv)) hd' hp'

/-- Claim C3 as stated: after any operation sequence, among concurrently
active orders every order of a priority user (non-empty senior-citizen or
disability document) holds a strictly smaller queue number than every order
of a non-priority user, regardless of insertion order. -/
def C3ClaimStatement : Prop :=
  ∀ (ops : List QOp), ∀ o₁ ∈ activeRows (runQOps ops).orders,
    ∀ o₂ ∈ activeRows (runQOps ops).orders,
    o₁.user.specPriority = true → o₂.user.specPriority = false →
    o₁.queue_number.getD 0 < o₂.queue_number.getD 0

/-- Claim C3 is false as stated: a queued user whose senior-citizen document
field holds the empty string is non-priority (Python truthiness) when they
insert themselves, but is selected by the priority isnull partition filter
when a later priority user inserts, so the later priority order is placed
after it — above an earlier regular order. -/
theorem C3_counterexample : ¬ C3ClaimStatement := by
  intro h
  have hcl := h [QOp.insert ⟨100, none, none⟩, QOp.insert ⟨101, some "", none⟩,
      QOp.insert ⟨102, some "d", none⟩]
    ⟨2, ⟨102, some "d", none⟩, .processing, none, some 3⟩ (by decide)
    ⟨0, ⟨100, none, none⟩, .processing, none, some 1⟩ (by decide)
    (by decide) (by decide)
  exact absurd hcl (by decide)

/-- C3 amended: provided no user's document field holds an empty string
(upload fields are NULL-consistent), after any operation sequence the active
queue is class-ordered — every order of a priority user sits strictly below
every order of a non-priority user — and within each class queue numbers
follow insertion order (primary-key order). -/
theorem C3_priority_ordering (ops : List QOp)
    (hdocs : ∀ u : User, QOp.insert u ∈ ops → u.docsConsistent) :
    ∀ o₁ ∈ activeRows (runQOps ops).orders,
      ∀ o₂ ∈ activeRows (runQOps ops).orders,
      (o₁.user.specPriority = true → o₂.user.specPriority = false →
        o₁.queue_number.getD 0 < o₂.queue_number.getD 0) ∧
      (o₁.user.specPriority = o₂.user.specPriority → o₁.id < o₂.id →
        o₁.queue_number.getD 0 < o₂.queue_number.getD 0) := by
  have hrun := foldl_prio ops ⟨0, []⟩ QInv_init hdocs
    (by intro o ho; cases ho)
    (by intro o₁ ho₁ o₂ ho₂; cases ho₁)
  exact hrun.2

/-- Witness for C3: a priority insert followed by a regular insert yields
queue numbers 1 and 2 in class order. -/
theorem C3_witness :
    ((⟨0, ⟨7, some "doc", none⟩, .processing, none, some 1⟩ : Order) ∈
      activeRows (runQOps [QOp.insert ⟨7, some "doc", none⟩,
        QOp.insert ⟨8, none, none⟩]).orders) ∧
    (⟨0, ⟨7, some "doc", none⟩, .processing, none,
        some 1⟩ : Order).queue_number.getD 0 <
      (⟨1, ⟨8, none, none⟩, .processing, none,
        some 2⟩ : Order).queue_number.getD 0 := by
  refine ⟨by decide, ?_⟩
  exact (C3_priority_ordering
    [QOp.insert ⟨7, some "doc", none⟩, QOp.insert ⟨8, none, none⟩]
    (by
      intro u hu
      rcases List.mem_cons.mp hu with h | h
      · injection h with h'
        rw [h']
        decide
      · rcases List.mem_cons.mp h with h2 | h2
        · injection h2 with h'
          rw [h']
          decide
        · cases h2)
    ⟨0, ⟨7, some "doc", none⟩, .processing, none, some 1⟩ (by decide)
    ⟨1, ⟨8, none, none⟩, .processing, none, some 2⟩ (by decide)).1
    (by decide) (by decide)

end MediServe
